import Mathlib

/-!
Verification of the generic lookup dispatcher and cache of `src/search.c`
(Exim's search layer).  Byte strings are modelled as `List Nat` (one entry
per byte; C strings carry no interior NUL, so the end of the list plays the
role of the terminating NUL).  Driver hooks are external code: a hook
invocation is modelled by an oracle value describing what the hook returned
and what it left in its by-reference outputs.
-/

/-- Byte strings (C `uschar *`), one `Nat` per byte, NUL-terminator implicit. -/
abbrev Str := List Nat

/-- UINT_MAX, the initial value of the `do_cache` TTL-output of a driver
`find` hook (`uint do_cache = UINT_MAX;` in `internal_search_find`). -/
def UINTMAX : Nat := 4294967295

/-- Cached result of the last lookups for one handle: `expiring_data`
(fields `expiry`, `opts`, `data.ptr`).  `expiry = 0` means "never expires". -/
structure ExpiringData where
  expiry : Nat
  opts : Option Str
  data : Option Str
deriving DecidableEq

/-- The dispatcher's per-handle cache block `search_cache`: the (opaque)
driver handle — only its openness matters to the dispatcher (`c->handle`,
NULL when the slot was evicted) — the search type, and the item cache
(`c->item_cache`, a tree keyed by query string, modelled as an association
list with distinct keys). -/
structure SCache where
  handleOpen : Bool
  search_type : Nat
  item_cache : List (Str × ExpiringData)
deriving DecidableEq

/-- Return status of a driver `find` hook. -/
inductive FindRet where
  | ok
  | fail
  | defer
deriving DecidableEq

/-- Oracle for one invocation of a driver's `find` hook: its return status,
the final value it left in `*datap` (`none` = it left the NULL it was handed),
and the final value of the by-reference TTL output `*do_cachep`. -/
structure HookOut where
  ret : FindRet
  data : Option Str
  do_cache : Nat
deriving DecidableEq

/-- Result of `internal_search_find`: the returned payload, the updated
`search_cache` block, the value of `f.search_find_defer` on return, and
whether the driver's `find` hook was invoked. -/
structure ISFRes where
  data : Option Str
  cache : SCache
  deferFlag : Bool
  driverCalled : Bool
deriving DecidableEq

/-- `tree_search(c->item_cache, keystring)`: exact-key lookup in the item
cache (modelled as association-list lookup). -/
def lookupIC : List (Str × ExpiringData) → Str → Option ExpiringData
  | [], _ => none
  | (k', e) :: rest, k => if k' = k then some e else lookupIC rest k

/-- Install-or-replace of an item-cache entry for a key: the code updates the
node found by `tree_search` in place when one exists, and inserts a fresh
node (`tree_insertnode`) otherwise (`search.c` lines 645-659). -/
def upsertIC : List (Str × ExpiringData) → Str → ExpiringData → List (Str × ExpiringData)
  | [], k, e => [(k, e)]
  | (k', e') :: rest, k, e =>
      if k' = k then (k, e) :: rest else (k', e') :: upsertIC rest k e

/-- The options-fingerprint comparison of the cache probe:
`!opts && !e->opts || opts && e->opts && Ustrcmp(opts, e->opts) == 0`. -/
def optsMatch : Option Str → Option Str → Bool
  | none, none => true
  | some a, some b => a = b
  | _, _ => false

/-- The miss path of `internal_search_find` (lines 629-669): the driver's
`find` hook has been invoked with `do_cache` initialised to `UINT_MAX`.
DEFER only sets the defer flag; otherwise a non-zero TTL output installs or
replaces the cache entry (`expiry = do_cache == UINT_MAX ? 0 : now+do_cache`,
options snapshot, payload possibly NULL) and a zero TTL output empties the
whole item cache of the handle (`c->item_cache = NULL`). -/
def missFind (c : SCache) (now : Nat) (keystring : Str) (opts : Option Str)
    (hook : HookOut) : ISFRes :=
  if hook.ret = FindRet.defer then
    ⟨hook.data, c, true, true⟩
  else if hook.do_cache ≠ 0 then
    let e : ExpiringData :=
      ⟨if hook.do_cache = UINTMAX then 0 else now + hook.do_cache, opts, hook.data⟩
    ⟨hook.data, { c with item_cache := upsertIC c.item_cache keystring e }, false, true⟩
  else
    ⟨hook.data, { c with item_cache := [] }, false, true⟩

/-- The cache-probe decision of `internal_search_find` (lines 556-566),
applied to the result of `tree_search` on the item cache: a hit needs an
entry that is unexpired (`!e->expiry || e->expiry > time(NULL)`), whose
options fingerprint matches, with cache reading permitted; on a hit the
cached payload is returned.  Otherwise the miss path runs. -/
def probeStep (c : SCache) (now : Nat) (keystring : Str) (cache_rd : Bool)
    (opts : Option Str) (hook : HookOut) : Option ExpiringData → ISFRes
  | some e =>
      if (e.expiry = 0 ∨ now < e.expiry) ∧ optsMatch opts e.opts = true ∧ cache_rd = true then
        ⟨e.data, c, false, false⟩
      else missFind c now keystring opts hook
  | none => missFind c now keystring opts hook

/-- `internal_search_find` (lines 522-685).  An empty key fails at once with
no driver call (`if (keystring[0] == 0) return NULL;`).  Otherwise the item
cache is probed for the key and `probeStep` decides between the cached hit
and the driver miss path (modelled by the `hook` oracle). -/
def internalSearchFind (c : SCache) (now : Nat) (keystring : Str)
    (cache_rd : Bool) (opts : Option Str) (hook : HookOut) : ISFRes :=
  if keystring = [] then ⟨none, c, false, false⟩
  else probeStep c now keystring cache_rd opts hook (lookupIC c.item_cache keystring)

theorem missFind_driverCalled (c : SCache) (now : Nat) (k : Str) (opts : Option Str)
    (hook : HookOut) : (missFind c now k opts hook).driverCalled = true := by
  unfold missFind
  split <;> [rfl; split <;> rfl]

theorem isf_probe_eq (c : SCache) (now : Nat) (key : Str) (cache_rd : Bool)
    (opts : Option Str) (hook : HookOut) (hk : key ≠ []) :
    internalSearchFind c now key cache_rd opts hook =
      probeStep c now key cache_rd opts hook (lookupIC c.item_cache key) := by
  unfold internalSearchFind
  exact if_neg hk

theorem isf_miss_eq (c : SCache) (now : Nat) (key : Str) (cache_rd : Bool)
    (opts : Option Str) (hook : HookOut) (hk : key ≠ [])
    (hcall : (internalSearchFind c now key cache_rd opts hook).driverCalled = true) :
    internalSearchFind c now key cache_rd opts hook = missFind c now key opts hook := by
  rw [isf_probe_eq c now key cache_rd opts hook hk] at hcall ⊢
  cases hlk : lookupIC c.item_cache key with
  | none => rfl
  | some e =>
      rw [hlk] at hcall
      simp only [probeStep] at hcall ⊢
      by_cases hcond : (e.expiry = 0 ∨ now < e.expiry) ∧ optsMatch opts e.opts = true ∧
          cache_rd = true
      · rw [if_pos hcond] at hcall
        exact absurd hcall (by simp)
      · exact if_neg hcond

theorem lookupIC_upsertIC_self (ic : List (Str × ExpiringData)) (k : Str) (e : ExpiringData) :
    lookupIC (upsertIC ic k e) k = some e := by
  induction ic with
  | nil => simp [upsertIC, lookupIC]
  | cons he rest ih =>
      obtain ⟨k', e'⟩ := he
      by_cases h : k' = k
      · simp [upsertIC, lookupIC, h]
      · simp [upsertIC, lookupIC, h, ih]

/-- C1: for every call to `internal_search_find` with a non-empty key, the
cached payload is returned without invoking the driver's `find` hook if and
only if: an item-cache entry exists for exactly that key, the entry's expiry
is 0 or strictly later than the current time, the entry's options fingerprint
equals the forwarded options (both null, or both non-null and byte-equal),
and cache reading is permitted; whenever any of these conditions fails, the
driver's `find` hook is invoked. -/
theorem C1_item_cache_hit (c : SCache) (now : Nat) (key : Str) (cache_rd : Bool)
    (opts : Option Str) (hook : HookOut) (hk : key ≠ []) :
    ((internalSearchFind c now key cache_rd opts hook).driverCalled = false ↔
      ∃ e, lookupIC c.item_cache key = some e ∧ (e.expiry = 0 ∨ now < e.expiry) ∧
        optsMatch opts e.opts = true ∧ cache_rd = true) ∧
    (∀ e, lookupIC c.item_cache key = some e → (e.expiry = 0 ∨ now < e.expiry) →
      optsMatch opts e.opts = true → cache_rd = true →
      (internalSearchFind c now key cache_rd opts hook).data = e.data) := by
  rw [isf_probe_eq c now key cache_rd opts hook hk]
  constructor
  · cases hlk : lookupIC c.item_cache key with
    | none =>
        simp only [probeStep, missFind_driverCalled]
        simp
    | some e =>
        simp only [probeStep]
        by_cases hcond : (e.expiry = 0 ∨ now < e.expiry) ∧ optsMatch opts e.opts = true ∧
            cache_rd = true
        · rw [if_pos hcond]
          exact iff_of_true rfl ⟨e, rfl, hcond.1, hcond.2.1, hcond.2.2⟩
        · rw [if_neg hcond]
          rw [missFind_driverCalled]
          refine iff_of_false (by simp) ?_
          rintro ⟨e', he', h1, h2, h3⟩
          cases he'
          exact absurd ⟨h1, h2, h3⟩ hcond
  · intro e hlk h1 h2 h3
    rw [hlk]
    simp only [probeStep]
    rw [if_pos ⟨h1, h2, h3⟩]

/-- C1 witness: a concrete hit.  Cache holds key `[107]` with a never-expiring
entry, null options both sides, cache reading on: the driver is not called and
the cached payload `[118]` is returned. -/
theorem C1_item_cache_hit_witness :
    ([107] : Str) ≠ [] ∧
    ((internalSearchFind ⟨true, 0, [([107], ⟨0, none, some [118]⟩)]⟩ 3 [107] true none
        ⟨FindRet.ok, none, 0⟩).driverCalled = false ↔
      ∃ e, lookupIC ([([107], ⟨0, none, some [118]⟩)] :
          List (Str × ExpiringData)) [107] = some e ∧
        (e.expiry = 0 ∨ 3 < e.expiry) ∧ optsMatch none e.opts = true ∧ true = true) := by
  refine ⟨by decide, ?_⟩
  exact (C1_item_cache_hit ⟨true, 0, [([107], ⟨0, none, some [118]⟩)]⟩ 3 [107] true none
    ⟨FindRet.ok, none, 0⟩ (by decide)).1

/-- C3: whenever the driver's `find` hook runs and returns OK or FAIL leaving
the TTL output non-zero, `internal_search_find` installs or replaces the
item-cache entry for the queried key with the returned payload (possibly
absent), a snapshot of the forwarded options, and expiry 0 when the TTL
equals `UINT_MAX` and `now + ttl` otherwise; when the TTL output is zero the
whole item cache of the handle is dropped while the handle is kept open. -/
theorem C3_cache_write_policy (c : SCache) (now : Nat) (key : Str) (cache_rd : Bool)
    (opts : Option Str) (hook : HookOut) (hk : key ≠ [])
    (hcall : (internalSearchFind c now key cache_rd opts hook).driverCalled = true)
    (hret : hook.ret ≠ FindRet.defer) :
    (hook.do_cache ≠ 0 →
      (internalSearchFind c now key cache_rd opts hook).cache.item_cache =
        upsertIC c.item_cache key
          ⟨if hook.do_cache = UINTMAX then 0 else now + hook.do_cache, opts, hook.data⟩ ∧
      lookupIC (internalSearchFind c now key cache_rd opts hook).cache.item_cache key =
        some ⟨if hook.do_cache = UINTMAX then 0 else now + hook.do_cache, opts, hook.data⟩) ∧
    (hook.do_cache = 0 →
      (internalSearchFind c now key cache_rd opts hook).cache.item_cache = []) ∧
    (internalSearchFind c now key cache_rd opts hook).cache.handleOpen = c.handleOpen := by
  rw [isf_miss_eq c now key cache_rd opts hook hk hcall]
  unfold missFind
  rw [if_neg hret]
  by_cases hdc : hook.do_cache ≠ 0
  · rw [if_pos hdc]
    exact ⟨fun _ => ⟨rfl, lookupIC_upsertIC_self _ _ _⟩, fun h => absurd h hdc, rfl⟩
  · rw [if_neg hdc]
    exact ⟨fun h => absurd h (by simpa using hdc), fun _ => rfl, rfl⟩

/-- C3 witness: a concrete miss (empty item cache) where the hook FAILs with
TTL 7: a negative entry with expiry `now + 7` and the forwarded options is
installed; and the handle stays open. -/
theorem C3_cache_write_policy_witness :
    (([107] : Str) ≠ [] ∧
      (internalSearchFind ⟨true, 0, []⟩ 100 [107] true (some [111])
        ⟨FindRet.fail, none, 7⟩).driverCalled = true ∧
      HookOut.ret ⟨FindRet.fail, none, 7⟩ ≠ FindRet.defer) ∧
    lookupIC (internalSearchFind ⟨true, 0, []⟩ 100 [107] true (some [111])
        ⟨FindRet.fail, none, 7⟩).cache.item_cache [107] =
      some ⟨107, some [111], none⟩ ∧
    (internalSearchFind ⟨true, 0, []⟩ 100 [107] true (some [111])
        ⟨FindRet.fail, none, 7⟩).cache.handleOpen = true := by
  refine ⟨⟨by decide, by decide, by decide⟩, ?_, ?_⟩
  · have h := (C3_cache_write_policy ⟨true, 0, []⟩ 100 [107] true (some [111])
      ⟨FindRet.fail, none, 7⟩ (by decide) (by decide) (by decide)).1 (by decide)
    rw [h.2]
    decide
  · exact (C3_cache_write_policy ⟨true, 0, []⟩ 100 [107] true (some [111])
      ⟨FindRet.fail, none, 7⟩ (by decide) (by decide) (by decide)).2.2

/-- C5 counterexample: the claim says DEFER applies the same cache write
policy as FAIL.  It does not: the write policy sits in the `else` of the
DEFER test (lines 629-669).  First conjunct: a DEFERred miss with TTL 5
(non-zero) installs nothing — the item cache stays empty, whereas the claim
requires a negative entry for key `[107]`.  Final conjuncts: a DEFERred miss
with TTL 0 does not flush the handle's item cache — the unrelated entry
survives, whereas the claim requires the cache dropped to empty. -/
theorem C5_counterexample :
    (internalSearchFind ⟨true, 0, []⟩ 0 [107] true none
        ⟨FindRet.defer, none, 5⟩).cache.item_cache = [] ∧
    ¬ (lookupIC (internalSearchFind ⟨true, 0, []⟩ 0 [107] true none
        ⟨FindRet.defer, none, 5⟩).cache.item_cache [107]).isSome ∧
    (internalSearchFind ⟨true, 0, [([106], ⟨0, none, none⟩)]⟩ 0 [107] true none
        ⟨FindRet.defer, none, 0⟩).cache.item_cache = [([106], ⟨0, none, none⟩)] ∧
    ¬ (internalSearchFind ⟨true, 0, [([106], ⟨0, none, none⟩)]⟩ 0 [107] true none
        ⟨FindRet.defer, none, 0⟩).cache.item_cache = [] := by
  refine ⟨by decide, by decide, by decide, by decide⟩

/-- C5 (amended): when the driver's `find` hook returns DEFER,
`internal_search_find` sets the defer flag visible to the caller, returns the
hook's payload output (null whenever the hook leaves it null, as drivers do
on DEFER), and — unlike FAIL — skips the cache write policy entirely: the
item cache and the handle are left exactly as they were (no entry installed
even with a non-zero TTL output, no flush on a zero TTL output). -/
theorem C5_defer_behavior (c : SCache) (now : Nat) (key : Str) (cache_rd : Bool)
    (opts : Option Str) (hook : HookOut) (hk : key ≠ [])
    (hcall : (internalSearchFind c now key cache_rd opts hook).driverCalled = true)
    (hret : hook.ret = FindRet.defer) :
    (internalSearchFind c now key cache_rd opts hook).deferFlag = true ∧
    (internalSearchFind c now key cache_rd opts hook).data = hook.data ∧
    (internalSearchFind c now key cache_rd opts hook).cache = c := by
  rw [isf_miss_eq c now key cache_rd opts hook hk hcall]
  unfold missFind
  rw [if_pos hret]
  exact ⟨rfl, rfl, rfl⟩

/-- C5 amended-claim witness: concrete DEFERred miss with TTL 5, empty cache:
defer flag set, null payload, state untouched. -/
theorem C5_defer_behavior_witness :
    (([107] : Str) ≠ [] ∧
      (internalSearchFind ⟨true, 0, []⟩ 0 [107] true none
        ⟨FindRet.defer, none, 5⟩).driverCalled = true) ∧
    (internalSearchFind ⟨true, 0, []⟩ 0 [107] true none
        ⟨FindRet.defer, none, 5⟩).deferFlag = true ∧
    (internalSearchFind ⟨true, 0, []⟩ 0 [107] true none
        ⟨FindRet.defer, none, 5⟩).data = none ∧
    (internalSearchFind ⟨true, 0, []⟩ 0 [107] true none
        ⟨FindRet.defer, none, 5⟩).cache = ⟨true, 0, []⟩ := by
  exact ⟨⟨by decide, by decide⟩,
    C5_defer_behavior ⟨true, 0, []⟩ 0 [107] true none ⟨FindRet.defer, none, 5⟩
      (by decide) (by decide) (by decide)⟩

/-! ## Type-spec parser: the "partial…" prefix of `search_findtype_partial` -/

/-- C `isdigit` on a byte (C locale). -/
def isdigitB (c : Nat) : Bool := 48 ≤ c && c ≤ 57

/-- C `ispunct` on a byte (C locale): printable, not alphanumeric, not space. -/
def ispunctB (c : Nat) : Bool :=
  (33 ≤ c && c ≤ 47) || (58 ≤ c && c ≤ 64) || (91 ≤ c && c ≤ 96) || (123 ≤ c && c ≤ 126)

/-- The seven bytes of the keyword that opens a prefixed lookup-type name
(`Ustrncmp(name, "partial", 7)` in `search_findtype_partial`). -/
def ptWord : Str := [112, 97, 114, 116, 105, 97, 108]

/-- The default affix `"*."` used when the keyword is followed by `-`. -/
def starDotAffix : Str := [42, 46]

/-- The digit scan `while (isdigit(*ss)) pv = pv*10 + *ss++ - '0';`
returning the accumulated value and the rest of the string. -/
def digitsVal : Str → Nat → Nat × Str
  | [], pv => (pv, [])
  | c :: rest, pv => if isdigitB c then digitsVal rest (pv * 10 + (c - 48)) else (pv, c :: rest)

/-- Value of a digit string, for stating what `digitsVal` accumulates. -/
def digitsNat (ds : Str) : Nat := ds.foldl (fun a c => a * 10 + (c - 48)) 0

/-- Parsed prefix: the value destined for `*ptypeptr` (-1 = no prefix),
the affix destined for `*ptypeaff`/`*afflen` (`none` = left NULL), and the
remainder of the name (`ss` in the code). -/
structure PtPrefix where
  ptype : Int
  aff : Option Str
  rest : Str
deriving DecidableEq

/-- The affix part of the prefix grammar (`search.c` lines 151-169): after
the keyword and optional digits, `(` captures a run of punctuation bytes
other than `)` and requires the closing `)`; `-` selects the default affix
`"*."`; anything else is the `BAD_TYPE` error (modelled as `none`, standing
for the negative return with `search_error_message` set). -/
def parseAffix (pv : Nat) : Str → Option PtPrefix
  | 40 :: ss1 =>
      (match ss1.drop ((ss1.takeWhile fun c => ispunctB c && (c != 41)).length) with
       | 41 :: ss3 => some ⟨(pv : Int), some (ss1.takeWhile fun c => ispunctB c && (c != 41)), ss3⟩
       | _ => none)
  | 45 :: ss1 => some ⟨(pv : Int), some starDotAffix, ss1⟩
  | _ => none

/-- The part of `search_findtype_partial` after the keyword matched
(lines 143-169): an optional digit run (default value 2), then the affix. -/
def parseAfterPt (ss0 : Str) : Option PtPrefix :=
  if isdigitB (ss0.headD 0) then
    parseAffix (digitsVal ss0 0).1 (digitsVal ss0 0).2
  else parseAffix 2 ss0

/-- The prefix recognition of `search_findtype_partial` (lines 129-170):
a name starting with the keyword goes through digit and affix parsing;
any other name leaves `pv = -1` and `*ptypeaff = NULL` and proceeds with
the whole name. -/
def parsePtPrefix (name : Str) : Option PtPrefix :=
  if ptWord.isPrefixOf name then parseAfterPt (name.drop 7)
  else some ⟨-1, none, name⟩

theorem takeWhile_append_cons (p : Nat → Bool) (l r : List Nat) (b : Nat)
    (h : ∀ c ∈ l, p c = true) (hb : p b = false) :
    (l ++ b :: r).takeWhile p = l := by
  induction l with
  | nil => simp [List.takeWhile, hb]
  | cons x xs ih =>
      simp only [List.cons_append, List.takeWhile, h x (by simp)]
      simpa using ih fun c hc => h c (by simp [hc])

theorem digitsVal_append (ds s : Str) (a : Nat) (hds : ∀ c ∈ ds, isdigitB c = true)
    (hs : isdigitB (s.headD 0) = false) :
    digitsVal (ds ++ s) a = (ds.foldl (fun x c => x * 10 + (c - 48)) a, s) := by
  induction ds generalizing a with
  | nil =>
      cases s with
      | nil => rfl
      | cons b r =>
          simp only [List.nil_append, List.foldl_nil]
          unfold digitsVal
          rw [if_neg (by simpa using hs)]
  | cons d ds' ih =>
      simp only [List.cons_append, List.foldl_cons]
      unfold digitsVal
      rw [if_pos (by simpa using hds d (by simp))]
      exact ih _ fun c hc => hds c (by simp [hc])

theorem parsePt_append (x : Str) : parsePtPrefix (ptWord ++ x) = parseAfterPt x := by
  unfold parsePtPrefix
  rw [if_pos (by rw [List.isPrefixOf_iff_prefix]; exact List.prefix_append _ _),
    show (ptWord ++ x).drop 7 = x from List.drop_left ptWord x]

theorem parseAfterPt_digits (ds s : Str) (hne : ds ≠ []) (hd : ∀ c ∈ ds, isdigitB c = true)
    (hs : isdigitB (s.headD 0) = false) :
    parseAfterPt (ds ++ s) = parseAffix (digitsNat ds) s := by
  cases ds with
  | nil => exact absurd rfl hne
  | cons d ds' =>
      unfold parseAfterPt
      rw [if_pos (by simpa using hd d (by simp)),
        digitsVal_append (d :: ds') s 0 hd hs]
      rfl

theorem parseAfterPt_nodigit (s : Str) (hs : isdigitB (s.headD 0) = false) :
    parseAfterPt s = parseAffix 2 s := by
  unfold parseAfterPt
  rw [if_neg (by simpa using hs)]

theorem parseAffix_paren (pv : Nat) (aff rest : Str)
    (ha : ∀ c ∈ aff, (ispunctB c && (c != 41)) = true) :
    parseAffix pv (40 :: (aff ++ 41 :: rest)) = some ⟨(pv : Int), some aff, rest⟩ := by
  show (match (aff ++ 41 :: rest).drop
      (((aff ++ 41 :: rest).takeWhile fun c => ispunctB c && (c != 41)).length) with
    | 41 :: ss3 =>
        some (⟨(pv : Int), some ((aff ++ 41 :: rest).takeWhile fun c => ispunctB c && (c != 41)),
          ss3⟩ : PtPrefix)
    | _ => none) = some ⟨(pv : Int), some aff, rest⟩
  rw [takeWhile_append_cons _ aff rest 41 ha (by decide),
    show (aff ++ 41 :: rest).drop aff.length = 41 :: rest from List.drop_left aff _]

theorem parseAffix_reject (pv : Nat) (c : Nat) (rest : Str) (h40 : c ≠ 40) (h45 : c ≠ 45) :
    parseAffix pv (c :: rest) = none := by
  unfold parseAffix
  split
  · rename_i heq; cases heq; exact absurd rfl h40
  · rename_i heq; cases heq; exact absurd rfl h45
  · rfl

theorem takeWhile_all (p : Nat → Bool) (l : List Nat) (h : ∀ c ∈ l, p c = true) :
    l.takeWhile p = l := by
  induction l with
  | nil => rfl
  | cons x xs ih =>
      simp only [List.takeWhile, h x (by simp)]
      simpa using ih fun c hc => h c (by simp [hc])

/-- An opening `(` whose affix scan runs off the end of the name (no closing
`)` at all) is the `BAD_TYPE` error. -/
theorem parseAffix_unclosed (pv : Nat) (aff : Str)
    (ha : ∀ c ∈ aff, (ispunctB c && (c != 41)) = true) :
    parseAffix pv (40 :: aff) = none := by
  show (match aff.drop ((aff.takeWhile fun c => ispunctB c && (c != 41)).length) with
    | 41 :: ss3 =>
        some (⟨(pv : Int), some (aff.takeWhile fun c => ispunctB c && (c != 41)),
          ss3⟩ : PtPrefix)
    | _ => none) = none
  rw [takeWhile_all _ aff ha, List.drop_length]

/-- An opening `(` whose affix scan stops at a byte that is neither affix
punctuation nor the closing `)` is the `BAD_TYPE` error. -/
theorem parseAffix_badaff (pv : Nat) (aff : Str) (c : Nat) (rest : Str)
    (ha : ∀ x ∈ aff, (ispunctB x && (x != 41)) = true)
    (hbad : (ispunctB c && (c != 41)) = false) (hc : c ≠ 41) :
    parseAffix pv (40 :: (aff ++ c :: rest)) = none := by
  show (match (aff ++ c :: rest).drop
      (((aff ++ c :: rest).takeWhile fun x => ispunctB x && (x != 41)).length) with
    | 41 :: ss3 =>
        some (⟨(pv : Int), some ((aff ++ c :: rest).takeWhile fun x => ispunctB x && (x != 41)),
          ss3⟩ : PtPrefix)
    | _ => none) = none
  rw [takeWhile_append_cons _ aff rest c ha hbad,
    show (aff ++ c :: rest).drop aff.length = c :: rest from List.drop_left aff _]
  split
  · rename_i heq; cases heq; exact absurd rfl hc
  · rfl

/-- C8: `search_findtype_partial` parses a leading keyword `partial` with no
digits to count 2 and with digits `N` to count `N`; a following `-` yields
the default affix `"*."` of length 2; a following parenthesized affix of
punctuation bytes other than `)` is captured verbatim with its length; a
name not starting with the keyword keeps count -1 (and a NULL affix); and
any other form after the keyword, with or without a digit run, is rejected
with a negative return and an error message (modelled by `none`): a byte
that is none of digit, `(`, `-` right after the keyword or after the
digits; the keyword or digits running to the end of the name; a `(` whose
affix never closes; and a `(` whose affix scan stops on a byte that is
neither affix punctuation nor `)`. -/
theorem C8_pt_syntax :
    (∀ name : Str, ptWord.isPrefixOf name = false →
      parsePtPrefix name = some ⟨-1, none, name⟩) ∧
    (∀ rest : Str, parsePtPrefix (ptWord ++ 45 :: rest) =
      some ⟨2, some starDotAffix, rest⟩) ∧
    starDotAffix.length = 2 ∧
    (∀ ds rest : Str, ds ≠ [] → (∀ c ∈ ds, isdigitB c = true) →
      parsePtPrefix (ptWord ++ (ds ++ 45 :: rest)) =
        some ⟨(digitsNat ds : Int), some starDotAffix, rest⟩) ∧
    (∀ aff rest : Str, (∀ c ∈ aff, (ispunctB c && (c != 41)) = true) →
      parsePtPrefix (ptWord ++ 40 :: (aff ++ 41 :: rest)) =
        some ⟨2, some aff, rest⟩) ∧
    (∀ ds aff rest : Str, ds ≠ [] → (∀ c ∈ ds, isdigitB c = true) →
      (∀ c ∈ aff, (ispunctB c && (c != 41)) = true) →
      parsePtPrefix (ptWord ++ (ds ++ 40 :: (aff ++ 41 :: rest))) =
        some ⟨(digitsNat ds : Int), some aff, rest⟩) ∧
    (∀ (c : Nat) (rest : Str), isdigitB c = false → c ≠ 40 → c ≠ 45 →
      parsePtPrefix (ptWord ++ c :: rest) = none) ∧
    parsePtPrefix ptWord = none ∧
    (∀ ds : Str, ds ≠ [] → (∀ c ∈ ds, isdigitB c = true) →
      parsePtPrefix (ptWord ++ ds) = none) ∧
    (∀ (ds : Str) (c : Nat) (rest : Str), ds ≠ [] → (∀ x ∈ ds, isdigitB x = true) →
      isdigitB c = false → c ≠ 40 → c ≠ 45 →
      parsePtPrefix (ptWord ++ (ds ++ c :: rest)) = none) ∧
    (∀ aff : Str, (∀ c ∈ aff, (ispunctB c && (c != 41)) = true) →
      parsePtPrefix (ptWord ++ 40 :: aff) = none) ∧
    (∀ ds aff : Str, ds ≠ [] → (∀ c ∈ ds, isdigitB c = true) →
      (∀ c ∈ aff, (ispunctB c && (c != 41)) = true) →
      parsePtPrefix (ptWord ++ (ds ++ 40 :: aff)) = none) ∧
    (∀ (aff : Str) (c : Nat) (rest : Str),
      (∀ x ∈ aff, (ispunctB x && (x != 41)) = true) →
      (ispunctB c && (c != 41)) = false → c ≠ 41 →
      parsePtPrefix (ptWord ++ 40 :: (aff ++ c :: rest)) = none) ∧
    (∀ (ds aff : Str) (c : Nat) (rest : Str), ds ≠ [] →
      (∀ x ∈ ds, isdigitB x = true) →
      (∀ x ∈ aff, (ispunctB x && (x != 41)) = true) →
      (ispunctB c && (c != 41)) = false → c ≠ 41 →
      parsePtPrefix (ptWord ++ (ds ++ 40 :: (aff ++ c :: rest))) = none) := by
  refine ⟨?_, ?_, by decide, ?_, ?_, ?_, ?_, ?_, ?_, ?_, ?_, ?_, ?_, ?_⟩
  · intro name hpf
    unfold parsePtPrefix
    rw [if_neg (by simp [hpf])]
  · intro rest
    rw [parsePt_append, parseAfterPt_nodigit (45 :: rest) rfl]
    rfl
  · intro ds rest hne hd
    rw [parsePt_append, parseAfterPt_digits ds (45 :: rest) hne hd rfl]
    rfl
  · intro aff rest ha
    rw [parsePt_append, parseAfterPt_nodigit (40 :: (aff ++ 41 :: rest)) rfl]
    exact parseAffix_paren 2 aff rest ha
  · intro ds aff rest hne hd ha
    rw [parsePt_append, parseAfterPt_digits ds (40 :: (aff ++ 41 :: rest)) hne hd rfl]
    exact parseAffix_paren (digitsNat ds) aff rest ha
  · intro c rest hcd h40 h45
    rw [parsePt_append]
    unfold parseAfterPt
    rw [if_neg (by simpa using hcd)]
    exact parseAffix_reject 2 c rest h40 h45
  · rw [show ptWord = ptWord ++ [] by simp, parsePt_append]
    rfl
  · intro ds hne hd
    have h9 := parseAfterPt_digits ds [] hne hd rfl
    rw [List.append_nil] at h9
    rw [parsePt_append, h9]
    rfl
  · intro ds c rest hne hd hcd h40 h45
    rw [parsePt_append, parseAfterPt_digits ds (c :: rest) hne hd (by simpa using hcd)]
    exact parseAffix_reject (digitsNat ds) c rest h40 h45
  · intro aff ha
    rw [parsePt_append, parseAfterPt_nodigit (40 :: aff) rfl]
    exact parseAffix_unclosed 2 aff ha
  · intro ds aff hne hd ha
    rw [parsePt_append, parseAfterPt_digits ds (40 :: aff) hne hd rfl]
    exact parseAffix_unclosed (digitsNat ds) aff ha
  · intro aff c rest ha hbad hc
    rw [parsePt_append, parseAfterPt_nodigit (40 :: (aff ++ c :: rest)) rfl]
    exact parseAffix_badaff 2 aff c rest ha hbad hc
  · intro ds aff c rest hne hd ha hbad hc
    rw [parsePt_append, parseAfterPt_digits ds (40 :: (aff ++ c :: rest)) hne hd rfl]
    exact parseAffix_badaff (digitsNat ds) aff c rest ha hbad hc

/-- C8 witness: the concrete name `partial3(+)x` parses to count 3 with
affix `+` and rest `x`; and the concrete malformed names `partial3%x`,
`partial3`, `partial(*` and `partial(ab)` are all rejected. -/
theorem C8_pt_syntax_witness :
    (([51] : Str) ≠ [] ∧ (∀ c ∈ ([51] : Str), isdigitB c = true) ∧
      (∀ c ∈ ([43] : Str), (ispunctB c && (c != 41)) = true)) ∧
    parsePtPrefix (ptWord ++ ([51] ++ 40 :: ([43] ++ 41 :: [120]))) =
      some ⟨(digitsNat [51] : Int), some [43], [120]⟩ ∧
    parsePtPrefix (ptWord ++ 37 :: [120]) = none ∧
    parsePtPrefix (ptWord ++ [51]) = none ∧
    parsePtPrefix (ptWord ++ 40 :: [42]) = none ∧
    parsePtPrefix (ptWord ++ 40 :: ([] ++ 97 :: [98, 41])) = none := by
  refine ⟨⟨by decide, by decide, by decide⟩, ?_, ?_, ?_, ?_, ?_⟩
  · exact C8_pt_syntax.2.2.2.2.2.1 [51] [43] [120] (by decide) (by decide) (by decide)
  · exact C8_pt_syntax.2.2.2.2.2.2.1 37 [120] (by decide) (by decide) (by decide)
  · exact C8_pt_syntax.2.2.2.2.2.2.2.2.1 [51] (by decide) (by decide)
  · exact C8_pt_syntax.2.2.2.2.2.2.2.2.2.2.1 [42] (by decide)
  · exact C8_pt_syntax.2.2.2.2.2.2.2.2.2.2.2.2.1 [] 97 [98, 41]
      (by decide) (by decide) (by decide)

/-! ## Driver registry and `search_findtype` binary chop -/

/-- Registry descriptor (`lookup_info`): the driver's NUL-free name and
whether its `find` hook is present in this binary (`->find != NULL`). -/
structure LookupInfo where
  name : Str
  hasFind : Bool
deriving DecidableEq

/-- Out-of-range placeholder for registry indexing (never reached while the
loop maintains `top <= lookup_list_count`). -/
def defaultLI : LookupInfo := ⟨[], false⟩

/-- C `Ustrncmp(a, b, n)`: compare at most `n` bytes, stopping at a NUL
(the end of a list stands for the NUL). -/
def ustrncmp : Str → Str → Nat → Int
  | _, _, 0 => 0
  | [], [], _ + 1 => 0
  | [], b :: _, _ + 1 => -(b : Int)
  | a :: _, [], _ + 1 => (a : Int)
  | a :: as, b :: bs, n + 1 => if a = b then ustrncmp as bs n else (a : Int) - (b : Int)

/-- Three-way lexicographic comparison of byte strings (the order in which
the registry is kept sorted). -/
def lexCmp : Str → Str → Ordering
  | [], [] => Ordering.eq
  | [], _ :: _ => Ordering.lt
  | _ :: _, [] => Ordering.gt
  | a :: as, b :: bs =>
      if a < b then Ordering.lt else if b < a then Ordering.gt else lexCmp as bs

/-- The binary chop of `search_findtype` (lines 69-92): compare the queried
slice against the middle entry with `Ustrncmp` capped at the slice length;
a compare of 0 with equal lengths is the exact match (answered positively
iff the `find` hook is present); compare `> 0` moves `bot` past `mid`, and
anything else (including a 0 compare against a strictly longer stored name)
lowers `top` to `mid`. -/
def findtypeLoop (reg : List LookupInfo) (nm : Str) (bot top : Nat) : Option Nat :=
  if h : top ≤ bot then none
  else
    let mid := (top + bot) / 2
    let e := reg.getD mid defaultLI
    let c := ustrncmp nm e.name nm.length
    if c = 0 ∧ e.name.length = nm.length then
      (if e.hasFind then some mid else none)
    else if 0 < c then findtypeLoop reg nm (mid + 1) top
    else findtypeLoop reg nm bot mid
termination_by top - bot
decreasing_by
  all_goals simp_wf
  all_goals omega

/-- `search_findtype` (lines 66-96): binary chop over the whole registry;
a negative C return (unknown name, or name present without a `find` hook)
is modelled as `none`. -/
def search_findtype (reg : List LookupInfo) (nm : Str) : Option Nat :=
  findtypeLoop reg nm 0 reg.length

theorem ustrncmp_lexCmp (a : Str) (ha : ∀ b ∈ a, 0 < b) :
    ∀ r : Str,
      ((ustrncmp a r a.length = 0 ∧ r.length = a.length) ↔ lexCmp a r = Ordering.eq) ∧
      (0 < ustrncmp a r a.length ↔ lexCmp a r = Ordering.gt) := by
  induction a with
  | nil =>
      intro r
      cases r with
      | nil => exact ⟨by simp [ustrncmp, lexCmp], by simp [ustrncmp, lexCmp]⟩
      | cons b bs => exact ⟨by simp [ustrncmp, lexCmp], by simp [ustrncmp, lexCmp]⟩
  | cons x xs ih =>
      intro r
      have hx : 0 < x := ha x (by simp)
      have ih' := ih fun b hb => ha b (by simp [hb])
      cases r with
      | nil =>
          constructor
          · constructor
            · rintro ⟨hc, -⟩
              rw [show ustrncmp (x :: xs) [] (x :: xs).length = (x : Int) from by
                simp [ustrncmp]] at hc
              omega
            · intro h
              rw [show lexCmp (x :: xs) [] = Ordering.gt from by simp [lexCmp]] at h
              cases h
          · constructor
            · intro _
              simp [lexCmp]
            · intro _
              rw [show ustrncmp (x :: xs) [] (x :: xs).length = (x : Int) from by
                simp [ustrncmp]]
              omega
      | cons y ys =>
          rcases lt_trichotomy x y with hlt | heq | hgt
          · have e1 : ustrncmp (x :: xs) (y :: ys) (x :: xs).length = (x : Int) - y := by
              simp [ustrncmp, Nat.ne_of_lt hlt]
            have e2 : lexCmp (x :: xs) (y :: ys) = Ordering.lt := by simp [lexCmp, hlt]
            rw [e1, e2]
            exact ⟨by constructor <;> intro h <;> [omega; cases h],
                   by constructor <;> intro h <;> [omega; cases h]⟩
          · subst heq
            have e1 : ustrncmp (x :: xs) (x :: ys) (x :: xs).length =
                ustrncmp xs ys xs.length := by simp [ustrncmp]
            have e2 : lexCmp (x :: xs) (x :: ys) = lexCmp xs ys := by simp [lexCmp]
            rw [e1, e2]
            exact ⟨by simpa using (ih' ys).1, (ih' ys).2⟩
          · have e1 : ustrncmp (x :: xs) (y :: ys) (x :: xs).length = (x : Int) - y := by
              simp [ustrncmp, (Nat.ne_of_lt hgt).symm]
            have e2 : lexCmp (x :: xs) (y :: ys) = Ordering.gt := by
              simp [lexCmp, hgt, Nat.lt_asymm hgt]
            rw [e1, e2]
            exact ⟨by constructor <;> intro h <;> [omega; cases h],
                   by constructor <;> intro h <;> [rfl; omega]⟩

theorem lexCmp_eq_iff : ∀ a b : Str, lexCmp a b = Ordering.eq ↔ a = b := by
  intro a
  induction a with
  | nil => intro b; cases b <;> simp [lexCmp]
  | cons x xs ih =>
      intro b
      cases b with
      | nil => simp [lexCmp]
      | cons y ys =>
          rcases lt_trichotomy x y with hlt | heq | hgt
          · simp [lexCmp, hlt, Nat.ne_of_lt hlt]
          · subst heq; simp [lexCmp, ih]
          · simp [lexCmp, hgt, Nat.lt_asymm hgt, (Nat.ne_of_lt hgt).symm]

theorem lexCmp_gt_iff_lt : ∀ a b : Str, lexCmp a b = Ordering.gt ↔ lexCmp b a = Ordering.lt := by
  intro a
  induction a with
  | nil => intro b; cases b <;> simp [lexCmp]
  | cons x xs ih =>
      intro b
      cases b with
      | nil => simp [lexCmp]
      | cons y ys =>
          rcases lt_trichotomy x y with hlt | heq | hgt
          · simp [lexCmp, hlt, Nat.lt_asymm hlt]
          · subst heq; simp [lexCmp, ih]
          · simp [lexCmp, hgt, Nat.lt_asymm hgt]

theorem findtypeLoop_none (reg : List LookupInfo) (nm : Str) (bot top : Nat)
    (hle : top ≤ bot) : findtypeLoop reg nm bot top = none := by
  rw [findtypeLoop]
  exact dif_pos hle

theorem findtypeLoop_step (reg : List LookupInfo) (nm : Str) (bot top : Nat)
    (hlt : bot < top) :
    findtypeLoop reg nm bot top =
      if ustrncmp nm (reg.getD ((top + bot) / 2) defaultLI).name nm.length = 0 ∧
          (reg.getD ((top + bot) / 2) defaultLI).name.length = nm.length then
        (if (reg.getD ((top + bot) / 2) defaultLI).hasFind then some ((top + bot) / 2) else none)
      else if 0 < ustrncmp nm (reg.getD ((top + bot) / 2) defaultLI).name nm.length then
        findtypeLoop reg nm ((top + bot) / 2 + 1) top
      else findtypeLoop reg nm bot ((top + bot) / 2) := by
  rw [findtypeLoop]
  exact dif_neg (by omega)

theorem findtypeLoop_sound (reg : List LookupInfo) (nm : Str) (ha : ∀ b ∈ nm, 0 < b) :
    ∀ (fuel bot top : Nat), top - bot ≤ fuel → top ≤ reg.length →
      ∀ j, findtypeLoop reg nm bot top = some j → reg.get? j = some ⟨nm, true⟩ := by
  intro fuel
  induction fuel with
  | zero =>
      intro bot top hf htop j hj
      rw [findtypeLoop_none reg nm bot top (by omega)] at hj
      cases hj
  | succ n ihn =>
      intro bot top hf htop j hj
      by_cases hle : top ≤ bot
      · rw [findtypeLoop_none reg nm bot top hle] at hj
        cases hj
      · rw [findtypeLoop_step reg nm bot top (by omega)] at hj
        set mid := (top + bot) / 2 with hmiddef
        have hmhi : mid < top := by omega
        have hmreg : mid < reg.length := lt_of_lt_of_le hmhi htop
        by_cases h1 : ustrncmp nm (reg.getD mid defaultLI).name nm.length = 0 ∧
            (reg.getD mid defaultLI).name.length = nm.length
        · rw [if_pos h1] at hj
          by_cases h2 : (reg.getD mid defaultLI).hasFind
          · rw [if_pos h2] at hj
            have hj' : mid = j := Option.some.inj hj
            subst hj'
            have hname : nm = (reg.getD mid defaultLI).name :=
              (lexCmp_eq_iff nm _).mp (((ustrncmp_lexCmp nm ha _).1).mp ⟨h1.1, h1.2⟩)
            have hgd : reg.getD mid defaultLI = ⟨nm, true⟩ := by
              cases hgd0 : reg.getD mid defaultLI with
              | mk n0 f0 =>
                  rw [hgd0] at hname h2
                  simp only at hname h2
                  rw [← hname]
                  rw [show f0 = true from h2]
            rw [List.get?_eq_get hmreg, ← List.getD_eq_get reg defaultLI hmreg, hgd]
          · rw [if_neg h2] at hj
            cases hj
        · rw [if_neg h1] at hj
          by_cases h3 : 0 < ustrncmp nm (reg.getD mid defaultLI).name nm.length
          · rw [if_pos h3] at hj
            exact ihn (mid + 1) top (by omega) htop j hj
          · rw [if_neg h3] at hj
            exact ihn bot mid (by omega) (le_trans (le_of_lt hmhi) htop) j hj

theorem findtypeLoop_complete (reg : List LookupInfo) (nm : Str) (ha : ∀ b ∈ nm, 0 < b)
    (hsort : reg.Pairwise fun u v => lexCmp u.name v.name = Ordering.lt) :
    ∀ (fuel bot top : Nat), top - bot ≤ fuel → top ≤ reg.length →
      ∀ i, bot ≤ i → i < top → reg.get? i = some ⟨nm, true⟩ →
      findtypeLoop reg nm bot top = some i := by
  intro fuel
  induction fuel with
  | zero =>
      intro bot top hf htop i hbi hit hreg
      omega
  | succ n ihn =>
      intro bot top hf htop i hbi hit hreg
      have hlt : bot < top := by omega
      rw [findtypeLoop_step reg nm bot top hlt]
      set mid := (top + bot) / 2 with hmiddef
      have hmlo : bot ≤ mid := by omega
      have hmhi : mid < top := by omega
      have hmreg : mid < reg.length := lt_of_lt_of_le hmhi htop
      have hireg : i < reg.length := lt_of_lt_of_le hit htop
      have higet : reg.get ⟨i, hireg⟩ = ⟨nm, true⟩ := by
        have h0 := List.get?_eq_get hireg
        rw [h0] at hreg
        exact Option.some.inj hreg
      rcases lt_trichotomy i mid with hc | hc | hc
      · have hs : lexCmp nm (reg.getD mid defaultLI).name = Ordering.lt := by
          have hp := List.pairwise_iff_get.mp hsort ⟨i, hireg⟩ ⟨mid, hmreg⟩ (Fin.mk_lt_mk.mpr hc)
          rw [higet] at hp
          rw [List.getD_eq_get reg defaultLI hmreg]
          exact hp
        have hne1 : ¬(ustrncmp nm (reg.getD mid defaultLI).name nm.length = 0 ∧
            (reg.getD mid defaultLI).name.length = nm.length) := by
          intro hcontra
          have h0 := ((ustrncmp_lexCmp nm ha _).1).mp hcontra
          rw [hs] at h0
          cases h0
        have hne2 : ¬ 0 < ustrncmp nm (reg.getD mid defaultLI).name nm.length := by
          intro hcontra
          have h0 := ((ustrncmp_lexCmp nm ha _).2).mp hcontra
          rw [hs] at h0
          cases h0
        rw [if_neg hne1, if_neg hne2]
        exact ihn bot mid (by omega) (le_of_lt hmreg) i hbi hc hreg
      · subst hc
        have hgd : reg.getD mid defaultLI = ⟨nm, true⟩ := by
          rw [List.getD_eq_get reg defaultLI hireg, higet]
        have e0 : ustrncmp nm (reg.getD mid defaultLI).name nm.length = 0 ∧
            (reg.getD mid defaultLI).name.length = nm.length := by
          rw [hgd]
          exact (ustrncmp_lexCmp nm ha nm).1.mpr ((lexCmp_eq_iff nm nm).mpr rfl)
        rw [if_pos e0, if_pos (by rw [hgd])]
      · have hs : lexCmp nm (reg.getD mid defaultLI).name = Ordering.gt := by
          have hp := List.pairwise_iff_get.mp hsort ⟨mid, hmreg⟩ ⟨i, hireg⟩ (Fin.mk_lt_mk.mpr hc)
          rw [higet] at hp
          rw [List.getD_eq_get reg defaultLI hmreg]
          exact (lexCmp_gt_iff_lt nm _).mpr hp
        have hne1 : ¬(ustrncmp nm (reg.getD mid defaultLI).name nm.length = 0 ∧
            (reg.getD mid defaultLI).name.length = nm.length) := by
          intro hcontra
          have h0 := ((ustrncmp_lexCmp nm ha _).1).mp hcontra
          rw [hs] at h0
          cases h0
        have h2 : 0 < ustrncmp nm (reg.getD mid defaultLI).name nm.length :=
          ((ustrncmp_lexCmp nm ha _).2).mpr hs
        rw [if_neg hne1, if_pos h2]
        exact ihn (mid + 1) top (by omega) htop i (by omega) hit hreg

/-- C4: for every NUL-free name slice over a registry sorted strictly by
name, `search_findtype` answers `some i` if and only if position `i` of the
registry holds a driver whose name equals the slice exactly (same bytes and
same length) and whose `find` hook is present.  In particular a query that
is a proper prefix of a registered name, or that a registered name is a
proper prefix of, resolves to the exactly matching name when one exists and
to failure otherwise, since only exact matches satisfy the right side. -/
theorem C4_findtype_exact (reg : List LookupInfo) (nm : Str)
    (ha : ∀ b ∈ nm, 0 < b)
    (hsort : reg.Pairwise fun u v => lexCmp u.name v.name = Ordering.lt) (i : Nat) :
    search_findtype reg nm = some i ↔ reg.get? i = some ⟨nm, true⟩ := by
  constructor
  · exact fun h => findtypeLoop_sound reg nm ha reg.length 0 reg.length (by omega) le_rfl i h
  · intro h
    have hi : i < reg.length := by
      by_contra hge
      rw [List.get?_eq_none.mpr (by omega)] at h
      cases h
    exact findtypeLoop_complete reg nm ha hsort reg.length 0 reg.length (by omega) le_rfl i
      (Nat.zero_le i) hi h

/-- Demonstration registry `dbm < lsearch < nis < nisplus`, strictly sorted
by name, every `find` hook present. -/
def demoReg : List LookupInfo :=
  [⟨[100, 98, 109], true⟩, ⟨[108, 115, 101, 97, 114, 99, 104], true⟩,
    ⟨[110, 105, 115], true⟩, ⟨[110, 105, 115, 112, 108, 117, 115], true⟩]

/-- C4 witness: on `demoReg` the query `nis` — a proper prefix of `nisplus`
— resolves to index 2 iff that slot is exactly `nis` with a `find` hook,
which it is. -/
theorem C4_findtype_exact_witness :
    ((∀ b ∈ ([110, 105, 115] : Str), 0 < b) ∧
      List.Pairwise (fun u v => lexCmp u.name v.name = Ordering.lt) demoReg) ∧
    (search_findtype demoReg [110, 105, 115] = some 2 ↔
      demoReg.get? 2 = some ⟨[110, 105, 115], true⟩) := by
  refine ⟨⟨by decide, by decide⟩, ?_⟩
  exact C4_findtype_exact demoReg [110, 105, 115] (by decide) (by decide) 2

/-! ## Dispatcher state: handle cache, LRU chain, open-file count -/

/-- Handle-cache key: the tree-node name `sprintf("%c%.254s", type+'0', fn)`
— the search type joined with the filename truncated to 254 bytes (empty
for query-style lookups). -/
abbrev TKey := Nat × Str

/-- `tree_search(search_tree, keybuffer)` (association-list lookup). -/
def lookupT : List (TKey × SCache) → TKey → Option SCache
  | [], _ => none
  | (k', c) :: rest, k => if k' = k then some c else lookupT rest k

/-- In-place mutation of the cache block of one tree node. -/
def updateT (f : SCache → SCache) : List (TKey × SCache) → TKey → List (TKey × SCache)
  | [], _ => []
  | (k', c) :: rest, k => if k' = k then (k', f c) :: rest else (k', c) :: updateT f rest k

/-- The dispatcher's global mutable state: `search_tree`, the LRU chain
`open_top .. open_bot` (most-recently-used first; the intrusive `up`/`down`
pointers of the C code are represented by the list order), and
`open_filecount`. -/
structure DState where
  tree : List (TKey × SCache)
  chain : List TKey
  filecount : Int
deriving DecidableEq

/-- The state after `search_tidyup` — also the initial state of a process
(`search_tree = NULL`, `open_top = open_bot = NULL`, `open_filecount = 0`). -/
def initState : DState := ⟨[], [], 0⟩

/-- The key composed by `search_open` (line 414). -/
def openKey (filename : Option Str) (stype : Nat) : TKey :=
  (stype, (filename.getD []).take 254)

/-- The eviction block of `search_open` (lines 434-450): when `open_bot` is
NULL it only logs a panic and continues; otherwise the LRU tail is cut off
the chain, its driver handle closed (`c->handle = NULL`) and the count
decremented. -/
def evictLRU (s : DState) : DState :=
  match s.chain.getLast? with
  | none => s
  | some v =>
      ⟨updateT (fun c => { c with handleOpen := false }) s.tree v,
        s.chain.dropLast, s.filecount - 1⟩

/-- The admission test guarding the eviction block (line 434):
`lk->type == lookup_absfile && open_filecount >= lookup_open_max`. -/
def evictGate (isAbs : Nat → Bool) (max : Int) (s : DState) (stype : Nat) : DState :=
  if isAbs stype && decide (max ≤ s.filecount) then evictLRU s else s

/-- The tail of `search_open` after the eviction check (lines 452-494),
run on the post-eviction state: the driver `open` hook (oracle `openOk`)
and `check` hook (oracle `checkOk`, true also when no hook exists) may fail,
returning NULL with the state as mutated so far; on success the count is
incremented for file-backed types and the tree node is created (fresh empty
item cache) or revived (item cache kept, handle reopened, search type
rewritten, LRU links zeroed — the slot is NOT put on the chain). -/
def openSlow (isAbs : Nat → Bool) (s1 : DState) (key : TKey) (stype : Nat)
    (openOk checkOk : Bool) (found : Bool) : Option TKey × DState :=
  if !openOk then (none, s1)
  else if !checkOk then (none, s1)
  else
    (some key,
      ⟨(if found then
          updateT (fun c => { c with handleOpen := true, search_type := stype }) s1.tree key
        else (key, ⟨true, stype, []⟩) :: s1.tree),
       s1.chain,
       if isAbs stype then s1.filecount + 1 else s1.filecount⟩)

/-- `search_open` (lines 383-494): a cached node with a live handle is
returned at once; otherwise the eviction gate runs and then the slow path
opens the driver and installs or revives the node.  The taint check on the
filename (lines 394-399) is outside the state machine: a tainted filename
never reaches it. -/
def search_open (isAbs : Nat → Bool) (max : Int) (s : DState) (filename : Option Str)
    (stype : Nat) (openOk checkOk : Bool) : Option TKey × DState :=
  match lookupT s.tree (openKey filename stype) with
  | some c =>
      if c.handleOpen then (some (openKey filename stype), s)
      else openSlow isAbs (evictGate isAbs max s stype) (openKey filename stype) stype
        openOk checkOk true
  | none =>
      openSlow isAbs (evictGate isAbs max s stype) (openKey filename stype) stype
        openOk checkOk false

/-- One `search_find` call on a handle (lines 717-801 for the state
effects): the LRU promotion block (754-784) splices a file-backed handle to
the head of the chain unless it is already there — a handle not yet on the
chain (`c->up == NULL`) is simply pushed at the head — and the lookup work
updates only the handle's item cache, through `internal_search_find`
(modelled here by its first probe; further wildcard probes touch the same
fields).  The chain and count are never changed by the lookup itself. -/
def findStep (isAbs : Nat → Bool) (s : DState) (key : TKey) (keystr : Str)
    (cache_rd : Bool) (opts : Option Str) (hook : HookOut) (now : Nat) :
    Option Str × DState :=
  match lookupT s.tree key with
  | none => (none, s)
  | some c =>
      (( internalSearchFind c now keystr cache_rd opts hook).data,
       ⟨updateT (fun _ => (internalSearchFind c now keystr cache_rd opts hook).cache) s.tree key,
        (if (s.chain.head? = some key) || !(isAbs key.1) then s.chain
         else key :: s.chain.erase key),
        s.filecount⟩)

/-- `search_tidyup` (lines 305-330): close everything, drop the tree, zero
the chain and the count. -/
def search_tidyup : DState → DState := fun _ => ⟨[], [], 0⟩

/-- One dispatcher operation, with the driver-hook outcomes as oracles. -/
inductive DOp where
  | op_open (filename : Option Str) (stype : Nat) (openOk checkOk : Bool)
  | op_find (key : TKey) (keystr : Str) (cache_rd : Bool) (opts : Option Str)
      (hook : HookOut) (now : Nat)
  | op_tidy
deriving DecidableEq

/-- State transition of one operation (return values discarded). -/
def stepD (isAbs : Nat → Bool) (max : Int) (s : DState) : DOp → DState
  | DOp.op_open f st oOk cOk => (search_open isAbs max s f st oOk cOk).2
  | DOp.op_find k ks rd opts hook now => (findStep isAbs s k ks rd opts hook now).2
  | DOp.op_tidy => search_tidyup s

/-- Run a sequence of dispatcher operations. -/
def runOps (isAbs : Nat → Bool) (max : Int) : DState → List DOp → DState
  | s, [] => s
  | s, op :: ops => runOps isAbs max (stepD isAbs max s op) ops

/-- The situation in which `search_open` reaches the eviction block: the key
is not cached with a live handle, the driver is file-backed, and the count
has reached the configured maximum. -/
def openNeedsEvict (isAbs : Nat → Bool) (max : Int) (s : DState) (filename : Option Str)
    (stype : Nat) : Bool :=
  (match lookupT s.tree (openKey filename stype) with
   | some c => !c.handleOpen
   | none => true) && isAbs stype && decide (max ≤ s.filecount)

/-- Guard for the amended C2: whenever an open reaches the eviction block,
the LRU chain is non-empty (an eviction victim exists). -/
def capGuardOk (isAbs : Nat → Bool) (max : Int) (s : DState) : DOp → Bool
  | DOp.op_open f st _ _ => !openNeedsEvict isAbs max s f st || !s.chain.isEmpty
  | _ => true

/-- A run is cap-good when every open that reaches the eviction block finds
a victim on the chain. -/
def goodRunCap (isAbs : Nat → Bool) (max : Int) : DState → List DOp → Bool
  | _, [] => true
  | s, op :: ops => capGuardOk isAbs max s op && goodRunCap isAbs max (stepD isAbs max s op) ops

theorem lookupT_updateT_self (f : SCache → SCache) (tr : List (TKey × SCache)) (k : TKey)
    (c : SCache) (hlk : lookupT tr k = some c) :
    lookupT (updateT f tr k) k = some (f c) := by
  induction tr with
  | nil => cases hlk
  | cons kc rest ih =>
      obtain ⟨k', c'⟩ := kc
      by_cases h : k' = k
      · subst h
        rw [show lookupT ((k', c') :: rest) k' = some c' from by simp [lookupT]] at hlk
        rw [show updateT f ((k', c') :: rest) k' = (k', f c') :: rest from by simp [updateT]]
        rw [show lookupT ((k', f c') :: rest) k' = some (f c') from by simp [lookupT]]
        rw [Option.some.inj hlk]
      · rw [show lookupT ((k', c') :: rest) k = lookupT rest k from by simp [lookupT, h]] at hlk
        rw [show updateT f ((k', c') :: rest) k = (k', c') :: updateT f rest k from by
          simp [updateT, h]]
        rw [show lookupT ((k', c') :: updateT f rest k) k = lookupT (updateT f rest k) k from by
          simp [lookupT, h]]
        exact ih hlk

theorem lookupT_updateT_ne (f : SCache → SCache) (tr : List (TKey × SCache)) (k m : TKey)
    (hne : m ≠ k) : lookupT (updateT f tr k) m = lookupT tr m := by
  induction tr with
  | nil => rfl
  | cons kc rest ih =>
      obtain ⟨k', c'⟩ := kc
      by_cases h : k' = k
      · subst h
        rw [show updateT f ((k', c') :: rest) k' = (k', f c') :: rest from by simp [updateT]]
        simp only [lookupT, if_neg fun hh : k' = m => hne (hh ▸ rfl)]
      · rw [show updateT f ((k', c') :: rest) k = (k', c') :: updateT f rest k from by
          simp [updateT, h]]
        by_cases h2 : k' = m
        · subst h2
          simp [lookupT]
        · simp only [lookupT, if_neg h2]
          exact ih

theorem evictLRU_of_empty (s : DState) (h : s.chain = []) : evictLRU s = s := by
  unfold evictLRU
  rw [h]
  rfl

theorem evictLRU_filecount_of_ne (s : DState) (h : s.chain ≠ []) :
    (evictLRU s).filecount = s.filecount - 1 := by
  unfold evictLRU
  cases hl : s.chain.getLast? with
  | none => exact absurd (List.getLast?_eq_none.mp hl) h
  | some v => rfl

theorem openSlow_filecount (isAbs : Nat → Bool) (s1 : DState) (key : TKey) (stype : Nat)
    (oOk cOk found : Bool) :
    (openSlow isAbs s1 key stype oOk cOk found).2.filecount =
      if oOk && cOk && isAbs stype then s1.filecount + 1 else s1.filecount := by
  unfold openSlow
  cases oOk <;> cases cOk <;> cases h : isAbs stype <;> simp [h]

theorem openSlow_chain (isAbs : Nat → Bool) (s1 : DState) (key : TKey) (stype : Nat)
    (oOk cOk found : Bool) :
    (openSlow isAbs s1 key stype oOk cOk found).2.chain = s1.chain := by
  unfold openSlow
  cases oOk <;> cases cOk <;> simp

theorem openSlow_gate_filecount_le (isAbs : Nat → Bool) (max : Int) (s : DState)
    (key : TKey) (st : Nat) (oOk cOk found : Bool)
    (h : s.filecount ≤ max)
    (hg : (isAbs st && decide (max ≤ s.filecount)) = true → s.chain ≠ []) :
    (openSlow isAbs (evictGate isAbs max s st) key st oOk cOk found).2.filecount ≤ max := by
  rw [openSlow_filecount]
  unfold evictGate
  by_cases hcond : (isAbs st && decide (max ≤ s.filecount)) = true
  · rw [if_pos hcond]
    rw [evictLRU_filecount_of_ne s (hg hcond)]
    split
    · omega
    · omega
  · rw [if_neg hcond]
    split
    · rename_i hsplit
      simp only [Bool.and_eq_true] at hsplit
      have hlt : ¬ (max ≤ s.filecount) := by
        intro hle
        exact hcond (by simp [hsplit.2, hle])
      omega
    · exact h

theorem search_open_filecount_le (isAbs : Nat → Bool) (max : Int) (s : DState)
    (f : Option Str) (st : Nat) (oOk cOk : Bool)
    (h : s.filecount ≤ max)
    (hg : openNeedsEvict isAbs max s f st = true → s.chain ≠ []) :
    (search_open isAbs max s f st oOk cOk).2.filecount ≤ max := by
  unfold search_open
  cases hlk : lookupT s.tree (openKey f st) with
  | some c =>
      show (if c.handleOpen then (some (openKey f st), s)
        else openSlow isAbs (evictGate isAbs max s st) (openKey f st) st oOk cOk
          true).2.filecount ≤ max
      by_cases hco : c.handleOpen = true
      · rw [if_pos hco]
        exact h
      · rw [if_neg hco]
        refine openSlow_gate_filecount_le isAbs max s _ st oOk cOk true h fun hc => ?_
        refine hg ?_
        unfold openNeedsEvict
        rw [hlk]
        have hco' : c.handleOpen = false := by simpa using hco
        simpa [hco'] using hc
  | none =>
      show (openSlow isAbs (evictGate isAbs max s st) (openKey f st) st oOk cOk
        false).2.filecount ≤ max
      refine openSlow_gate_filecount_le isAbs max s _ st oOk cOk false h fun hc => ?_
      refine hg ?_
      unfold openNeedsEvict
      rw [hlk]
      simpa using hc

theorem findStep_filecount (isAbs : Nat → Bool) (s : DState) (key : TKey) (ks : Str)
    (rd : Bool) (opts : Option Str) (hook : HookOut) (now : Nat) :
    (findStep isAbs s key ks rd opts hook now).2.filecount = s.filecount := by
  unfold findStep
  cases hlk : lookupT s.tree key <;> rfl

theorem stepD_cap (isAbs : Nat → Bool) (max : Int) (s : DState) (op : DOp)
    (hmax : 0 ≤ max) (h : s.filecount ≤ max) (hg : capGuardOk isAbs max s op = true) :
    (stepD isAbs max s op).filecount ≤ max := by
  cases op with
  | op_tidy => exact hmax
  | op_find k ks rd opts hook now =>
      simp only [stepD]
      rw [findStep_filecount]
      exact h
  | op_open f st oOk cOk =>
      simp only [stepD]
      refine search_open_filecount_le isAbs max s f st oOk cOk h fun hne => ?_
      simp only [capGuardOk, hne, Bool.not_true, Bool.false_or, Bool.not_eq_true',
        List.isEmpty_eq_false] at hg
      exact hg

theorem runOps_cap (isAbs : Nat → Bool) (max : Int) (hmax : 0 ≤ max) :
    ∀ (ops : List DOp) (s : DState), s.filecount ≤ max →
      goodRunCap isAbs max s ops = true → (runOps isAbs max s ops).filecount ≤ max := by
  intro ops
  induction ops with
  | nil => exact fun s h _ => h
  | cons op rest ih =>
      intro s h hgr
      simp only [goodRunCap, Bool.and_eq_true] at hgr
      exact ih (stepD isAbs max s op) (stepD_cap isAbs max s op hmax h hgr.1) hgr.2

theorem search_open_evict_route (isAbs : Nat → Bool) (max : Int) (s : DState)
    (f : Option Str) (st : Nat) (oOk cOk : Bool)
    (hne : openNeedsEvict isAbs max s f st = true) :
    search_open isAbs max s f st oOk cOk =
      openSlow isAbs (evictLRU s) (openKey f st) st oOk cOk
        (lookupT s.tree (openKey f st)).isSome := by
  unfold openNeedsEvict at hne
  cases hlk : lookupT s.tree (openKey f st) with
  | some c =>
      rw [hlk] at hne
      simp only [Bool.and_eq_true] at hne
      obtain ⟨⟨h1, h2⟩, h3⟩ := hne
      have hco : c.handleOpen = false := by simpa using h1
      simp only [search_open, hlk]
      rw [if_neg (by simp [hco])]
      unfold evictGate
      rw [if_pos (by simp [h2, h3])]
      rfl
  | none =>
      rw [hlk] at hne
      simp only [Bool.and_eq_true] at hne
      obtain ⟨⟨h1, h2⟩, h3⟩ := hne
      simp only [search_open, hlk]
      unfold evictGate
      rw [if_pos (by simp [h2, h3])]
      rfl

theorem evictLRU_spec (s : DState) (v : TKey) (hv : s.chain.getLast? = some v) :
    (evictLRU s).chain = s.chain.dropLast ∧
    (evictLRU s).filecount = s.filecount - 1 ∧
    ∀ c, lookupT s.tree v = some c →
      lookupT (evictLRU s).tree v = some { c with handleOpen := false } := by
  have he : evictLRU s =
      ⟨updateT (fun c => { c with handleOpen := false }) s.tree v,
        s.chain.dropLast, s.filecount - 1⟩ := by
    unfold evictLRU
    rw [hv]
  rw [he]
  exact ⟨rfl, rfl, fun c hc =>
    lookupT_updateT_self (fun c => { c with handleOpen := false }) s.tree v c hc⟩

/-- C2: the code violates the claimed open-file budget.  Failing input:
cap 1, two `search_open` calls for different file-backed resources with no
intervening `search_find`, from a fresh state.  The claim (and the spec's
invariant) says the count never exceeds the maximum and that the
least-recently-used handle is closed first; instead the count ends at
2 > 1 and nothing is closed.  The eviction block exists precisely to
enforce the cap and panic-logs ("too many lookups open, but can't find one
to close", `LOG_MAIN|LOG_PANIC`) when it cannot — but `search_open` itself
creates the condition by zeroing the slot's LRU links (line 490) instead
of chaining it, so `open_bot` is NULL while the count sits at the cap.
This theorem evaluates the model at the failing input. -/
theorem C2_cap_violation :
    ¬ ((runOps (fun _ => true) 1 initState
        [DOp.op_open none 0 true true, DOp.op_open none 1 true true]).filecount ≤ 1) := by
  decide

/-- Supporting analysis for the C2 bug: the eviction logic itself is
correct, and the cap breach comes precisely from unchained slots.  On every
run in which each file-backed open reaching the eviction block finds a
victim on the chain, `open_filecount` stays within the maximum; an open
that reaches the block always routes through `evictLRU`; and `evictLRU`
closes exactly the least-recently-used chained handle (chain tail closed,
unchained, count decremented) before the driver open. -/
theorem capBound_guarded :
    (∀ (isAbs : Nat → Bool) (max : Int) (ops : List DOp), 0 ≤ max →
      goodRunCap isAbs max initState ops = true →
      (runOps isAbs max initState ops).filecount ≤ max) ∧
    (∀ (isAbs : Nat → Bool) (max : Int) (s : DState) (f : Option Str) (st : Nat)
        (oOk cOk : Bool), openNeedsEvict isAbs max s f st = true →
      search_open isAbs max s f st oOk cOk =
        openSlow isAbs (evictLRU s) (openKey f st) st oOk cOk
          (lookupT s.tree (openKey f st)).isSome) ∧
    (∀ (s : DState) (v : TKey), s.chain.getLast? = some v →
      (evictLRU s).chain = s.chain.dropLast ∧
      (evictLRU s).filecount = s.filecount - 1 ∧
      ∀ c, lookupT s.tree v = some c →
        lookupT (evictLRU s).tree v = some { c with handleOpen := false }) :=
  ⟨fun isAbs max ops hmax hg => runOps_cap isAbs max hmax ops initState hmax hg,
   search_open_evict_route, evictLRU_spec⟩

/-- Concrete run of the guarded bound: cap 1; open a file-backed resource,
use it in a `search_find` (which chains it), then open a second one — the
eviction block closes the first and the count stays at the cap. -/
theorem capBound_guarded_demo :
    ((0 : Int) ≤ 1 ∧ goodRunCap (fun _ => true) 1 initState
      [DOp.op_open none 0 true true,
       DOp.op_find (0, []) [107] true none ⟨FindRet.fail, none, 0⟩ 0,
       DOp.op_open none 1 true true] = true) ∧
    (runOps (fun _ => true) 1 initState
      [DOp.op_open none 0 true true,
       DOp.op_find (0, []) [107] true none ⟨FindRet.fail, none, 0⟩ 0,
       DOp.op_open none 1 true true]).filecount ≤ 1 :=
  ⟨⟨by decide, by decide⟩,
   capBound_guarded.1 (fun _ => true) 1
     [DOp.op_open none 0 true true,
      DOp.op_find (0, []) [107] true none ⟨FindRet.fail, none, 0⟩ 0,
      DOp.op_open none 1 true true] (by decide) (by decide)⟩

/-! ## LRU chain cardinality (C7) -/

/-- Number of live file-backed handles in the handle cache. -/
def openAbsCount (isAbs : Nat → Bool) (tr : List (TKey × SCache)) : Int :=
  ((tr.filter fun kc => kc.2.handleOpen && isAbs kc.1.1).length : Int)

/-- Caller contract for `search_find`: the handle passed in is live (the C
code would otherwise hand a NULL backend handle to the driver). -/
def findGuardOk (s : DState) : DOp → Bool
  | DOp.op_find k _ _ _ _ _ =>
      (match lookupT s.tree k with
       | some c => c.handleOpen
       | none => true)
  | _ => true

/-- A run is find-good when `search_find` is only applied to live handles. -/
def goodRunFind (isAbs : Nat → Bool) (max : Int) : DState → List DOp → Bool
  | _, [] => true
  | s, op :: ops => findGuardOk s op && goodRunFind isAbs max (stepD isAbs max s op) ops

/-- Dispatcher state invariant: tree keys are distinct, the count equals the
number of live file-backed handles, and the LRU chain is a duplicate-free
list of keys of live file-backed handles. -/
def InvD (isAbs : Nat → Bool) (s : DState) : Prop :=
  (s.tree.map Prod.fst).Nodup ∧
  s.filecount = openAbsCount isAbs s.tree ∧
  s.chain.Nodup ∧
  ∀ k ∈ s.chain, ∃ c, lookupT s.tree k = some c ∧ c.handleOpen = true ∧ isAbs k.1 = true

theorem lookupT_mem (tr : List (TKey × SCache)) (k : TKey) (c : SCache)
    (h : lookupT tr k = some c) : (k, c) ∈ tr := by
  induction tr with
  | nil => cases h
  | cons kc rest ih =>
      obtain ⟨k', c'⟩ := kc
      by_cases hk : k' = k
      · subst hk
        rw [show lookupT ((k', c') :: rest) k' = some c' from by simp [lookupT]] at h
        rw [Option.some.inj h]
        simp
      · rw [show lookupT ((k', c') :: rest) k = lookupT rest k from by simp [lookupT, hk]] at h
        exact List.mem_cons_of_mem _ (ih h)

theorem lookupT_eq_none_iff (tr : List (TKey × SCache)) (k : TKey) :
    lookupT tr k = none ↔ k ∉ tr.map Prod.fst := by
  induction tr with
  | nil => simp [lookupT]
  | cons kc rest ih =>
      obtain ⟨k', c'⟩ := kc
      by_cases hk : k' = k
      · subst hk
        simp [lookupT]
      · rw [show lookupT ((k', c') :: rest) k = lookupT rest k from by simp [lookupT, hk]]
        simp only [List.map_cons, List.mem_cons]
        rw [ih]
        constructor
        · intro h hmem
          rcases hmem with h1 | h2
          · exact hk (h1 ▸ rfl)
          · exact h h2
        · intro h hmem
          exact h (Or.inr hmem)

theorem lookupT_cons_ne (tr : List (TKey × SCache)) (k m : TKey) (c : SCache)
    (h : m ≠ k) : lookupT ((k, c) :: tr) m = lookupT tr m := by
  show (if k = m then some c else lookupT tr m) = lookupT tr m
  rw [if_neg fun hh : k = m => h (hh ▸ rfl)]

theorem updateT_map_fst (f : SCache → SCache) (tr : List (TKey × SCache)) (k : TKey) :
    (updateT f tr k).map Prod.fst = tr.map Prod.fst := by
  induction tr with
  | nil => rfl
  | cons kc rest ih =>
      obtain ⟨k', c'⟩ := kc
      by_cases hk : k' = k
      · subst hk
        simp [updateT]
      · simp only [updateT, if_neg hk, List.map_cons, ih]

theorem openAbsCount_cons (isAbs : Nat → Bool) (k : TKey) (c : SCache)
    (tr : List (TKey × SCache)) :
    openAbsCount isAbs ((k, c) :: tr) =
      (if c.handleOpen && isAbs k.1 then 1 else 0) + openAbsCount isAbs tr := by
  unfold openAbsCount
  rw [List.filter_cons]
  by_cases h : (c.handleOpen && isAbs k.1) = true
  · rw [if_pos (by simpa using h), if_pos h]
    simp only [List.length_cons]
    push_cast
    ring
  · rw [if_neg (by simpa using h), if_neg h]
    simp

theorem openAbsCount_updateT (isAbs : Nat → Bool) (f : SCache → SCache)
    (tr : List (TKey × SCache)) (k : TKey) (c : SCache) (hlk : lookupT tr k = some c) :
    openAbsCount isAbs (updateT f tr k) =
      openAbsCount isAbs tr - (if c.handleOpen && isAbs k.1 then 1 else 0)
        + (if (f c).handleOpen && isAbs k.1 then 1 else 0) := by
  induction tr with
  | nil => cases hlk
  | cons kc rest ih =>
      obtain ⟨k', c'⟩ := kc
      by_cases hk : k' = k
      · subst hk
        rw [show lookupT ((k', c') :: rest) k' = some c' from by simp [lookupT]] at hlk
        have hc : c' = c := Option.some.inj hlk
        subst hc
        rw [show updateT f ((k', c') :: rest) k' = (k', f c') :: rest from by simp [updateT]]
        rw [openAbsCount_cons, openAbsCount_cons]
        by_cases h1 : (c'.handleOpen && isAbs k'.1) = true <;>
          by_cases h2 : ((f c').handleOpen && isAbs k'.1) = true <;>
            simp [h1, h2] <;> ring
      · rw [show lookupT ((k', c') :: rest) k = lookupT rest k from by simp [lookupT, hk]] at hlk
        rw [show updateT f ((k', c') :: rest) k = (k', c') :: updateT f rest k from by
          simp [updateT, hk]]
        rw [openAbsCount_cons, openAbsCount_cons, ih hlk]
        ring

theorem isf_cache_handleOpen (c : SCache) (now : Nat) (ks : Str) (rd : Bool)
    (opts : Option Str) (hook : HookOut) :
    (internalSearchFind c now ks rd opts hook).cache.handleOpen = c.handleOpen := by
  unfold internalSearchFind
  split
  · rfl
  · cases lookupIC c.item_cache ks with
    | none =>
        show (missFind c now ks opts hook).cache.handleOpen = c.handleOpen
        unfold missFind
        split
        · rfl
        · split <;> rfl
    | some e =>
        show (if (e.expiry = 0 ∨ now < e.expiry) ∧ optsMatch opts e.opts = true ∧ rd = true then
            (⟨e.data, c, false, false⟩ : ISFRes)
          else missFind c now ks opts hook).cache.handleOpen = c.handleOpen
        split
        · rfl
        · unfold missFind
          split
          · rfl
          · split <;> rfl

theorem evict_inv (isAbs : Nat → Bool) (s : DState) (hInv : InvD isAbs s) :
    InvD isAbs (evictLRU s) := by
  obtain ⟨hkeys, hcount, hnd, hmem⟩ := hInv
  cases hv : s.chain.getLast? with
  | none =>
      rw [show evictLRU s = s from by unfold evictLRU; rw [hv]]
      exact ⟨hkeys, hcount, hnd, hmem⟩
  | some v =>
      have hchne : s.chain ≠ [] := by
        intro hc
        rw [hc] at hv
        cases hv
      have hvmem : v ∈ s.chain := by
        obtain ⟨hne2, heq2⟩ := List.mem_getLast?_eq_getLast (l := s.chain) (x := v) hv
        exact heq2 ▸ List.getLast_mem hne2
      obtain ⟨cv, hcv, hcvo, hcva⟩ := hmem v hvmem
      have he : evictLRU s =
          ⟨updateT (fun c => { c with handleOpen := false }) s.tree v,
            s.chain.dropLast, s.filecount - 1⟩ := by
        unfold evictLRU
        rw [hv]
      rw [he]
      have hgl : s.chain.getLast hchne = v := by
        obtain ⟨hne2, heq2⟩ := List.mem_getLast?_eq_getLast (l := s.chain) (x := v) hv
        exact heq2.symm
      refine ⟨?_, ?_, ?_, ?_⟩
      · rw [updateT_map_fst]
        exact hkeys
      · show s.filecount - 1 = openAbsCount isAbs (updateT _ s.tree v)
        rw [openAbsCount_updateT isAbs _ s.tree v cv hcv]
        rw [if_pos (by simp [hcvo, hcva]), if_neg (by simp)]
        omega
      · exact (List.dropLast_sublist s.chain).nodup hnd
      · intro m hm
        have hmchain : m ∈ s.chain := (List.dropLast_sublist s.chain).subset hm
        have hmv : m ≠ v := by
          intro heqv
          subst heqv
          have hsplit := List.dropLast_append_getLast hchne
          rw [← hsplit] at hnd
          rw [List.nodup_append] at hnd
          exact hnd.2.2 hm (by rw [hgl]; simp)
        obtain ⟨cm, hcm, hcmo, hcma⟩ := hmem m hmchain
        exact ⟨cm, by rw [lookupT_updateT_ne _ s.tree v m hmv]; exact hcm, hcmo, hcma⟩

theorem evictGate_inv (isAbs : Nat → Bool) (max : Int) (s : DState) (st : Nat)
    (hInv : InvD isAbs s) : InvD isAbs (evictGate isAbs max s st) := by
  unfold evictGate
  split
  · exact evict_inv isAbs s hInv
  · exact hInv

theorem evictGate_lookup_closed (isAbs : Nat → Bool) (max : Int) (s : DState) (st : Nat)
    (key : TKey) (c : SCache) (hInv : InvD isAbs s)
    (hlk : lookupT s.tree key = some c) (hco : c.handleOpen = false) :
    lookupT (evictGate isAbs max s st).tree key = some c := by
  unfold evictGate
  split
  · unfold evictLRU
    cases hv : s.chain.getLast? with
    | none => exact hlk
    | some v =>
        have hvmem : v ∈ s.chain := by
          obtain ⟨hne2, heq2⟩ := List.mem_getLast?_eq_getLast (l := s.chain) (x := v) hv
          exact heq2 ▸ List.getLast_mem hne2
        obtain ⟨cv, hcv, hcvo, _⟩ := hInv.2.2.2 v hvmem
        have hkv : key ≠ v := by
          intro he
          subst he
          rw [hlk] at hcv
          rw [← Option.some.inj hcv] at hcvo
          rw [hco] at hcvo
          cases hcvo
        show lookupT (updateT _ s.tree v) key = some c
        rw [lookupT_updateT_ne _ s.tree v key hkv]
        exact hlk
  · exact hlk

theorem evictGate_lookup_none (isAbs : Nat → Bool) (max : Int) (s : DState) (st : Nat)
    (key : TKey) (hlk : lookupT s.tree key = none) :
    lookupT (evictGate isAbs max s st).tree key = none := by
  unfold evictGate
  split
  · unfold evictLRU
    cases hv : s.chain.getLast? with
    | none => exact hlk
    | some v =>
        show lookupT (updateT _ s.tree v) key = none
        rw [lookupT_eq_none_iff] at hlk ⊢
        rw [updateT_map_fst]
        exact hlk
  · exact hlk

theorem openSlow_inv (isAbs : Nat → Bool) (s1 : DState) (key : TKey) (stype : Nat)
    (oOk cOk found : Bool) (hInv : InvD isAbs s1) (hkey : key.1 = stype)
    (hfound : if found = true then ∃ c, lookupT s1.tree key = some c ∧ c.handleOpen = false
              else lookupT s1.tree key = none) :
    InvD isAbs (openSlow isAbs s1 key stype oOk cOk found).2 := by
  obtain ⟨hkeys, hcount, hnd, hmem⟩ := hInv
  cases oOk with
  | false => exact ⟨hkeys, hcount, hnd, hmem⟩
  | true =>
    cases cOk with
    | false => exact ⟨hkeys, hcount, hnd, hmem⟩
    | true =>
      cases found with
      | true =>
          obtain ⟨c, hc, hcclosed⟩ := (by exact hfound :
            ∃ c, lookupT s1.tree key = some c ∧ c.handleOpen = false)
          show InvD isAbs
            ⟨updateT (fun c => { c with handleOpen := true, search_type := stype }) s1.tree key,
              s1.chain, if isAbs stype then s1.filecount + 1 else s1.filecount⟩
          refine ⟨?_, ?_, hnd, ?_⟩
          · rw [updateT_map_fst]
            exact hkeys
          · show (if isAbs stype then s1.filecount + 1 else s1.filecount) = _
            rw [openAbsCount_updateT isAbs _ s1.tree key c hc, hkey]
            by_cases habs : isAbs stype = true <;> simp [habs, hcclosed] <;> omega
          · intro m hm
            obtain ⟨cm, hcm, hcmo, hcma⟩ := hmem m hm
            have hmk : m ≠ key := by
              intro he
              subst he
              rw [hcm] at hc
              rw [← Option.some.inj hc] at hcclosed
              rw [hcmo] at hcclosed
              cases hcclosed
            exact ⟨cm, by rw [lookupT_updateT_ne _ s1.tree key m hmk]; exact hcm, hcmo, hcma⟩
      | false =>
          have hnone : lookupT s1.tree key = none := hfound
          show InvD isAbs
            ⟨(key, ⟨true, stype, []⟩) :: s1.tree, s1.chain,
              if isAbs stype then s1.filecount + 1 else s1.filecount⟩
          refine ⟨?_, ?_, hnd, ?_⟩
          · simp only [List.map_cons]
            exact List.nodup_cons.mpr ⟨(lookupT_eq_none_iff s1.tree key).mp hnone, hkeys⟩
          · rw [openAbsCount_cons, hkey]
            by_cases habs : isAbs stype = true <;> simp [habs] <;> omega
          · intro m hm
            obtain ⟨cm, hcm, hcmo, hcma⟩ := hmem m hm
            have hmk : m ≠ key := by
              intro he
              subst he
              rw [hnone] at hcm
              cases hcm
            exact ⟨cm, by rw [lookupT_cons_ne s1.tree key m _ hmk]; exact hcm, hcmo, hcma⟩

theorem search_open_inv (isAbs : Nat → Bool) (max : Int) (s : DState) (f : Option Str)
    (st : Nat) (oOk cOk : Bool) (hInv : InvD isAbs s) :
    InvD isAbs (search_open isAbs max s f st oOk cOk).2 := by
  cases hlk : lookupT s.tree (openKey f st) with
  | some c =>
      by_cases hco : c.handleOpen = true
      · rw [show search_open isAbs max s f st oOk cOk = (some (openKey f st), s) from by
          simp only [search_open, hlk]; rw [if_pos hco]]
        exact hInv
      · have hco' : c.handleOpen = false := by simpa using hco
        rw [show search_open isAbs max s f st oOk cOk =
            openSlow isAbs (evictGate isAbs max s st) (openKey f st) st oOk cOk true from by
          simp only [search_open, hlk]; rw [if_neg hco]]
        refine openSlow_inv isAbs _ (openKey f st) st oOk cOk true
          (evictGate_inv isAbs max s st hInv) rfl ?_
        exact ⟨c, evictGate_lookup_closed isAbs max s st (openKey f st) c hInv hlk hco', hco'⟩
  | none =>
      rw [show search_open isAbs max s f st oOk cOk =
          openSlow isAbs (evictGate isAbs max s st) (openKey f st) st oOk cOk false from by
        simp only [search_open, hlk]]
      refine openSlow_inv isAbs _ (openKey f st) st oOk cOk false
        (evictGate_inv isAbs max s st hInv) rfl ?_
      exact evictGate_lookup_none isAbs max s st (openKey f st) hlk

theorem findStep_inv (isAbs : Nat → Bool) (s : DState) (key : TKey) (ks : Str)
    (rd : Bool) (opts : Option Str) (hook : HookOut) (now : Nat) (hInv : InvD isAbs s)
    (hguard : findGuardOk s (DOp.op_find key ks rd opts hook now) = true) :
    InvD isAbs (findStep isAbs s key ks rd opts hook now).2 := by
  obtain ⟨hkeys, hcount, hnd, hmem⟩ := hInv
  cases hlk : lookupT s.tree key with
  | none =>
      rw [show findStep isAbs s key ks rd opts hook now = (none, s) from by
        unfold findStep; rw [hlk]]
      exact ⟨hkeys, hcount, hnd, hmem⟩
  | some c =>
      have hopen : c.handleOpen = true := by
        simp only [findGuardOk] at hguard
        rw [hlk] at hguard
        exact hguard
      have hstep : (findStep isAbs s key ks rd opts hook now).2 =
          ⟨updateT (fun _ => (internalSearchFind c now ks rd opts hook).cache) s.tree key,
           (if (s.chain.head? = some key) || !(isAbs key.1) then s.chain
            else key :: s.chain.erase key),
           s.filecount⟩ := by
        unfold findStep
        rw [hlk]
      rw [hstep]
      have hro : (internalSearchFind c now ks rd opts hook).cache.handleOpen = c.handleOpen :=
        isf_cache_handleOpen c now ks rd opts hook
      refine ⟨?_, ?_, ?_, ?_⟩
      · rw [updateT_map_fst]
        exact hkeys
      · show s.filecount = openAbsCount isAbs (updateT _ s.tree key)
        rw [openAbsCount_updateT isAbs _ s.tree key c hlk]
        simp only [hro]
        rw [Int.sub_add_cancel]
        exact hcount
      · split
        · exact hnd
        · exact List.nodup_cons.mpr
            ⟨fun hmemk => ((hnd.mem_erase_iff).mp hmemk).1 rfl, hnd.erase key⟩
      · intro m hm
        split at hm
        · obtain ⟨cm, hcm, hcmo, hcma⟩ := hmem m hm
          by_cases hmk : m = key
          · subst hmk
            refine ⟨(internalSearchFind c now ks rd opts hook).cache,
              lookupT_updateT_self _ s.tree m c hlk, ?_, hcma⟩
            rw [hro]
            exact hopen
          · exact ⟨cm, by rw [lookupT_updateT_ne _ s.tree key m hmk]; exact hcm, hcmo, hcma⟩
        · rename_i hcond
          have habs : isAbs key.1 = true := by
            revert hcond
            cases h : isAbs key.1 <;> simp [h]
          rcases List.mem_cons.mp hm with hmk | hmtail
          · subst hmk
            refine ⟨(internalSearchFind c now ks rd opts hook).cache,
              lookupT_updateT_self _ s.tree m c hlk, ?_, habs⟩
            rw [hro]
            exact hopen
          · obtain ⟨hne, hmchain⟩ := (hnd.mem_erase_iff).mp hmtail
            obtain ⟨cm, hcm, hcmo, hcma⟩ := hmem m hmchain
            exact ⟨cm, by rw [lookupT_updateT_ne _ s.tree key m hne]; exact hcm, hcmo, hcma⟩

theorem stepD_inv (isAbs : Nat → Bool) (max : Int) (s : DState) (op : DOp)
    (hInv : InvD isAbs s) (hg : findGuardOk s op = true) :
    InvD isAbs (stepD isAbs max s op) := by
  cases op with
  | op_open f st oOk cOk => exact search_open_inv isAbs max s f st oOk cOk hInv
  | op_find k ks rd opts hook now => exact findStep_inv isAbs s k ks rd opts hook now hInv hg
  | op_tidy =>
      show InvD isAbs ⟨[], [], 0⟩
      exact ⟨by simp, by simp [openAbsCount], List.nodup_nil, by simp [lookupT]⟩

theorem runOps_inv (isAbs : Nat → Bool) (max : Int) :
    ∀ (ops : List DOp) (s : DState), InvD isAbs s → goodRunFind isAbs max s ops = true →
      InvD isAbs (runOps isAbs max s ops) := by
  intro ops
  induction ops with
  | nil => exact fun s h _ => h
  | cons op rest ih =>
      intro s h hg
      simp only [goodRunFind, Bool.and_eq_true] at hg
      exact ih (stepD isAbs max s op) (stepD_inv isAbs max s op h hg.1) hg.2

theorem InvD_chain_le (isAbs : Nat → Bool) (s : DState) (hInv : InvD isAbs s) :
    (s.chain.length : Int) ≤ s.filecount := by
  obtain ⟨hkeys, hcount, hnd, hmem⟩ := hInv
  rw [hcount]
  have hsub : s.chain ⊆
      (s.tree.filter fun kc => kc.2.handleOpen && isAbs kc.1.1).map Prod.fst := by
    intro m hm
    obtain ⟨cm, hcm, hcmo, hcma⟩ := hmem m hm
    exact List.mem_map.mpr
      ⟨(m, cm), List.mem_filter.mpr ⟨lookupT_mem _ _ _ hcm, by simp [hcmo, hcma]⟩, rfl⟩
  have hlen := (List.subperm_of_subset hnd hsub).length_le
  rw [List.length_map] at hlen
  unfold openAbsCount
  exact_mod_cast hlen

theorem InvD_init (isAbs : Nat → Bool) : InvD isAbs initState :=
  ⟨by simp [initState], by simp [initState, openAbsCount], List.nodup_nil,
    by simp [initState]⟩

/-- C7 counterexample: right after one successful file-backed `search_open`
from the initial state, the LRU chain is empty while `open_filecount` is 1 —
`search_open` increments the count (line 472) but never appends the slot to
the chain (`c->up = c->down = NULL`, line 490); the append happens only in
`search_find` (lines 754-784).  So the claimed equality between dispatcher
operations fails. -/
theorem C7_counterexample :
    ¬ (((runOps (fun _ => true) 10 initState
          [DOp.op_open none 0 true true]).chain.length : Int) =
        (runOps (fun _ => true) 10 initState
          [DOp.op_open none 0 true true]).filecount) := by
  decide

/-- C7 (amended): between dispatcher operations the LRU chain is a
duplicate-free list of live file-backed handles whose length never exceeds
`open_filecount` (equality holds only once every live file-backed handle has
been through a `search_find`); a successful `search_open` of a file-backed
driver (here: fresh key, below the cap) increments the count while leaving
the chain unchanged — the slot reaches the MRU end of the chain only on its
first `search_find`, which always leaves the handle at the head of the
chain and the count untouched. -/
theorem C7_chain_amended :
    (∀ (isAbs : Nat → Bool) (max : Int) (ops : List DOp),
      goodRunFind isAbs max initState ops = true →
      ((runOps isAbs max initState ops).chain.length : Int) ≤
        (runOps isAbs max initState ops).filecount) ∧
    (∀ (isAbs : Nat → Bool) (max : Int) (s : DState) (f : Option Str) (st : Nat),
      isAbs st = true → lookupT s.tree (openKey f st) = none → ¬ (max ≤ s.filecount) →
      search_open isAbs max s f st true true =
        (some (openKey f st),
          ⟨(openKey f st, ⟨true, st, []⟩) :: s.tree, s.chain, s.filecount + 1⟩)) ∧
    (∀ (isAbs : Nat → Bool) (s : DState) (key : TKey) (ks : Str) (rd : Bool)
        (opts : Option Str) (hook : HookOut) (now : Nat) (c : SCache),
      lookupT s.tree key = some c → isAbs key.1 = true →
      (findStep isAbs s key ks rd opts hook now).2.chain.head? = some key ∧
      (findStep isAbs s key ks rd opts hook now).2.filecount = s.filecount) := by
  refine ⟨?_, ?_, ?_⟩
  · intro isAbs max ops hg
    exact InvD_chain_le isAbs _ (runOps_inv isAbs max ops initState (InvD_init isAbs) hg)
  · intro isAbs max s f st habs hlk hle
    simp only [search_open, hlk]
    unfold evictGate
    rw [if_neg (by simp [hle])]
    unfold openSlow
    simp [habs]
  · intro isAbs s key ks rd opts hook now c hlk habs
    have hstep : (findStep isAbs s key ks rd opts hook now).2 =
        ⟨updateT (fun _ => (internalSearchFind c now ks rd opts hook).cache) s.tree key,
         (if (s.chain.head? = some key) || !(isAbs key.1) then s.chain
          else key :: s.chain.erase key),
         s.filecount⟩ := by
      unfold findStep
      rw [hlk]
    rw [hstep]
    refine ⟨?_, rfl⟩
    show (if (s.chain.head? = some key) || !(isAbs key.1) then s.chain
      else key :: s.chain.erase key).head? = some key
    by_cases hh : s.chain.head? = some key
    · rw [if_pos (by simp [hh])]
      exact hh
    · rw [if_neg (by simp [hh, habs])]
      rfl

/-- C7 amended-claim witness: open a file-backed resource and use it once;
the run is find-good and the chain length (1) is bounded by the count (1). -/
theorem C7_chain_amended_witness :
    goodRunFind (fun _ => true) 10 initState
      [DOp.op_open none 0 true true,
       DOp.op_find (0, []) [107] true none ⟨FindRet.ok, some [118], 7⟩ 5] = true ∧
    ((runOps (fun _ => true) 10 initState
      [DOp.op_open none 0 true true,
       DOp.op_find (0, []) [107] true none ⟨FindRet.ok, some [118], 7⟩ 5]).chain.length : Int) ≤
      (runOps (fun _ => true) 10 initState
        [DOp.op_open none 0 true true,
         DOp.op_find (0, []) [107] true none ⟨FindRet.ok, some [118], 7⟩ 5]).filecount :=
  ⟨by decide,
   C7_chain_amended.1 (fun _ => true) 10
     [DOp.op_open none 0 true true,
      DOp.op_find (0, []) [107] true none ⟨FindRet.ok, some [118], 7⟩ 5] (by decide)⟩

/-! ## Wildcard engine: `search_find` (lines 798-972) -/

/-- `Ustrrchr(s, b)`: index of the rightmost occurrence of byte `b`. -/
def lastIdxOf : Str → Nat → Option Nat
  | [], _ => none
  | c :: rest, b =>
      match lastIdxOf rest b with
      | some i => some (i + 1)
      | none => if c = b then some 0 else none

/-- `Ustrncpy(buf + i, patch, patch.length)`: overwrite `patch.length` bytes
of the buffer at offset `i`. -/
def writeAt (buf : Str) (i : Nat) (patch : Str) : Str :=
  buf.take i ++ patch ++ buf.drop (i + patch.length)

/-- `while (*keystring3 && *keystring3 != '.') keystring3++;`: the cursor
offset of the next dot at or after `k3`, or the end of the buffer. -/
def advanceDot (buf : Str) (k3 : Nat) : Nat :=
  k3 + ((buf.drop k3).takeWhile fun c => c ≠ 46).length

/-- The expansion-variable writes of a trim-loop hit (lines 873-885): the
wild prefix of the original key, then a detainted copy of the fixed part
(clamped at 0).  Lengths are C `int`s, hence `Int`. -/
def trimExpand (keystring pk : Str) (afflen : Nat) (expandEnabled : Bool) :
    List (Str × Int) :=
  if expandEnabled then
    [(keystring, (keystring.length : Int) - ((pk.length : Int) - afflen) - 1),
     ((keystring.drop ((keystring.length : Int) - ((pk.length : Int) - afflen)).toNat).take
        (if (pk.length : Int) - afflen < 0 then 0 else (pk.length : Int) - afflen).toNat,
      if (pk.length : Int) - afflen < 0 then 0 else (pk.length : Int) - afflen)]
  else []

/-- Result of the left-trimming loop (and of the star phases): the yield,
the defer flag, the keys probed in order, the final buffer contents, and
the expansion-variable writes. -/
structure TrimRes where
  yield : Option Str
  deferFlag : Bool
  probes : List Str
  buf : Str
  expand : List (Str × Int)
deriving DecidableEq

/-- The left-trimming loop of the partial-match engine (lines 833-890).
`fuel` counts the remaining successful tests of `while (dotcount-- >=
partial)` — the caller passes `(dotcount - partial + 1).toNat`.  Each pass
advances the cursor to the next dot; at the end of the string a final
lookup of the bare affix is done (with a trailing dot stripped when the
affix is longer than one byte), unless the affix is empty, in which case
the loop breaks; otherwise the affix is written over the bytes just before
the cursor and the resulting suffix is probed.  A defer aborts; a hit
records the expansion variables and stops; a miss steps the cursor past
the affix and loops. -/
def trimLoop (probe : Str → Option Str × Bool) (keystring : Str) (expandEnabled : Bool)
    (affix : Str) : Nat → Str → Nat → Nat → TrimRes
  | 0, buf, _, _ => ⟨none, false, [], buf, []⟩
  | fuel + 1, buf, k3, afflen =>
      if advanceDot buf k3 = buf.length then
        if afflen < 1 then ⟨none, false, [], buf, []⟩
        else
          (match (if 1 < afflen ∧ affix.getD (afflen - 1) 0 = 46 then afflen - 1 else afflen),
              probe (affix.take
                (if 1 < afflen ∧ affix.getD (afflen - 1) 0 = 46 then afflen - 1 else afflen)) with
           | afflen2, (_, true) => ⟨none, true, [affix.take afflen2], affix.take afflen2, []⟩
           | afflen2, (some y, false) =>
               ⟨some y, false, [affix.take afflen2], affix.take afflen2,
                trimExpand keystring (affix.take afflen2) afflen2 expandEnabled⟩
           | afflen2, (none, false) =>
               let r := trimLoop probe keystring expandEnabled affix fuel
                 (affix.take afflen2) (0 + afflen2) afflen2
               ⟨r.yield, r.deferFlag, affix.take afflen2 :: r.probes, r.buf, r.expand⟩)
      else
        (match probe ((if 0 < afflen then
            writeAt buf (advanceDot buf k3 + 1 - afflen) (affix.take afflen)
          else buf).drop (advanceDot buf k3 + 1 - afflen)) with
         | (_, true) =>
             ⟨none, true,
              [(if 0 < afflen then
                  writeAt buf (advanceDot buf k3 + 1 - afflen) (affix.take afflen)
                else buf).drop (advanceDot buf k3 + 1 - afflen)],
              (if 0 < afflen then
                 writeAt buf (advanceDot buf k3 + 1 - afflen) (affix.take afflen)
               else buf), []⟩
         | (some y, false) =>
             ⟨some y, false,
              [(if 0 < afflen then
                  writeAt buf (advanceDot buf k3 + 1 - afflen) (affix.take afflen)
                else buf).drop (advanceDot buf k3 + 1 - afflen)],
              (if 0 < afflen then
                 writeAt buf (advanceDot buf k3 + 1 - afflen) (affix.take afflen)
               else buf),
              trimExpand keystring
                ((if 0 < afflen then
                    writeAt buf (advanceDot buf k3 + 1 - afflen) (affix.take afflen)
                  else buf).drop (advanceDot buf k3 + 1 - afflen)) afflen expandEnabled⟩
         | (none, false) =>
             ⟨(trimLoop probe keystring expandEnabled affix fuel
                 (if 0 < afflen then
                    writeAt buf (advanceDot buf k3 + 1 - afflen) (affix.take afflen)
                  else buf) ((advanceDot buf k3 + 1 - afflen) + afflen) afflen).yield,
              (trimLoop probe keystring expandEnabled affix fuel
                 (if 0 < afflen then
                    writeAt buf (advanceDot buf k3 + 1 - afflen) (affix.take afflen)
                  else buf) ((advanceDot buf k3 + 1 - afflen) + afflen) afflen).deferFlag,
              (if 0 < afflen then
                 writeAt buf (advanceDot buf k3 + 1 - afflen) (affix.take afflen)
               else buf).drop (advanceDot buf k3 + 1 - afflen) ::
                (trimLoop probe keystring expandEnabled affix fuel
                   (if 0 < afflen then
                      writeAt buf (advanceDot buf k3 + 1 - afflen) (affix.take afflen)
                    else buf) ((advanceDot buf k3 + 1 - afflen) + afflen) afflen).probes,
              (trimLoop probe keystring expandEnabled affix fuel
                 (if 0 < afflen then
                    writeAt buf (advanceDot buf k3 + 1 - afflen) (affix.take afflen)
                  else buf) ((advanceDot buf k3 + 1 - afflen) + afflen) afflen).buf,
              (trimLoop probe keystring expandEnabled affix fuel
                 (if 0 < afflen then
                    writeAt buf (advanceDot buf k3 + 1 - afflen) (affix.take afflen)
                  else buf) ((advanceDot buf k3 + 1 - afflen) + afflen) afflen).expand⟩)

/-- The `*@` attempt (lines 899-923): only with the STARAT flag, a rightmost
`@` with at least one byte before it; the byte before the `@` is overwritten
with `*`, the suffix from that byte is probed, the byte is restored, and on
a hit the expansion variables record the original key with the offset of
the `@` (the wild part), and the original key with length 0. -/
def starAtCore (probe : Str → Option Str × Bool) (keyBuf : Str)
    (expandEnabled : Bool) (i : Nat) : TrimRes :=
  match probe ((keyBuf.set (i - 1) 42).drop (i - 1)) with
  | (_, true) =>
      ⟨none, true, [(keyBuf.set (i - 1) 42).drop (i - 1)],
       (keyBuf.set (i - 1) 42).set (i - 1) (keyBuf.getD (i - 1) 0), []⟩
  | (some y, false) =>
      ⟨some y, false, [(keyBuf.set (i - 1) 42).drop (i - 1)],
       (keyBuf.set (i - 1) 42).set (i - 1) (keyBuf.getD (i - 1) 0),
       if expandEnabled then
         [((keyBuf.set (i - 1) 42).set (i - 1) (keyBuf.getD (i - 1) 0), (i : Int)),
          ((keyBuf.set (i - 1) 42).set (i - 1) (keyBuf.getD (i - 1) 0), 0)]
       else []⟩
  | (none, false) =>
      ⟨none, false, [(keyBuf.set (i - 1) 42).drop (i - 1)],
       (keyBuf.set (i - 1) 42).set (i - 1) (keyBuf.getD (i - 1) 0), []⟩

def starAtPhase (probe : Str → Option Str × Bool) (keyBuf : Str)
    (starat expandEnabled : Bool) : TrimRes :=
  if starat then
    match lastIdxOf keyBuf 64 with
    | some i =>
        if 0 < i then starAtCore probe keyBuf expandEnabled i
        else ⟨none, false, [], keyBuf, []⟩
    | none => ⟨none, false, [], keyBuf, []⟩
  else ⟨none, false, [], keyBuf, []⟩

/-- The `*@` attempt followed by the `*` attempt (lines 899-942): the bare
`*` is probed when nothing has matched and STAR or STARAT is set; on a hit
the expansion variables are the whole original key and the empty wild. -/
def starBare (probe : Str → Option Str × Bool) (r1 : TrimRes)
    (star starat expandEnabled : Bool) : TrimRes :=
  if r1.deferFlag then r1
  else
    match r1.yield with
    | some _ => r1
    | none =>
        if star || starat then
          (match probe [42] with
           | (y, d) =>
               ⟨y, d, r1.probes ++ [[42]], r1.buf,
                if expandEnabled then
                  (match y with
                   | some _ => [(r1.buf, (r1.buf.length : Int)), (r1.buf, 0)]
                   | none => [])
                else []⟩)
        else r1

def starPhase (probe : Str → Option Str × Bool) (keyBuf : Str)
    (star starat expandEnabled : Bool) : TrimRes :=
  starBare probe (starAtPhase probe keyBuf starat expandEnabled) star starat expandEnabled

/-- Engine result: the yield, the defer flag, the ordered list of keys
probed through `internal_search_find`, the final contents of the caller's
key buffer, and the expansion-variable writes. -/
structure WRes where
  yield : Option Str
  deferFlag : Bool
  probes : List Str
  keyFinal : Str
  expand : List (Str × Int)
deriving DecidableEq

/-- Common exit of `search_find` (lines 944-971): the `set_null_wild`
expansion block (only ever reached with a non-null yield) and the `ret=key`
post-processing. -/
def finishW (keyB : Str) (yield : Option Str) (probes : List Str)
    (expand : List (Str × Int)) (setNullWild expandEnabled retKey deferFlag : Bool) : WRes :=
  ⟨(if retKey ∧ yield.isSome = true then some keyB else yield), deferFlag, probes, keyB,
    expand ++
      (if setNullWild ∧ expandEnabled = true ∧ yield.isSome = true then
        [(keyB, 0), (keyB, (keyB.length : Int))]
      else [])⟩

/-- The star phases followed by the common exit. -/
def starFinish (probe : Str → Option Str × Bool) (keyB : Str)
    (star starat expandEnabled retKey : Bool) (probes0 : List Str) : WRes :=
  finishW (starPhase probe keyB star starat expandEnabled).buf
    (starPhase probe keyB star starat expandEnabled).yield
    (probes0 ++ (starPhase probe keyB star starat expandEnabled).probes)
    (starPhase probe keyB star starat expandEnabled).expand
    false expandEnabled retKey (starPhase probe keyB star starat expandEnabled).deferFlag

/-- Exit of the partial-match branch: a deferred trim aborts; a trim hit
goes to the common exit with its recorded expansion; a miss falls through
to the star phases.  `aliased` tells whether the trim buffer is the
caller's key buffer itself (the zero-affix case, `keystring2 = keystring`)
or the freshly allocated `store_get` buffer. -/
def afterTrim (probe : Str → Option Str × Bool) (keystring : Str)
    (star starat expandEnabled retKey : Bool) (probes0 : List Str) (r : TrimRes)
    (aliased : Bool) : WRes :=
  if r.deferFlag then
    ⟨none, true, probes0 ++ r.probes, if aliased then r.buf else keystring, []⟩
  else
    match r.yield with
    | some y =>
        finishW (if aliased then r.buf else keystring) (some y) (probes0 ++ r.probes)
          r.expand false expandEnabled retKey false
    | none =>
        starFinish probe (if aliased then r.buf else keystring) star starat expandEnabled
          retKey (probes0 ++ r.probes)

/-- The wildcard engine of `search_find` (lines 798-972), with
`internal_search_find` abstracted as the `probe` oracle (key to yield and
defer flag) and the option preprocessing (lines 741-752) reflected in the
`retKey` flag and the oracle.  Attempt 1 is the verbatim key (a hit sets
`set_null_wild` when partial matching is enabled); attempt 2, only with
`pcount >= 0`, prepends the affix (when non-empty) and then left-trims;
attempts 3 and 4 are the `*@` and `*` defaults. -/
def searchFindW (probe : Str → Option Str × Bool) (keystring : Str) (pcount : Int)
    (affix : Str) (afflen0 : Nat) (star starat expandEnabled retKey : Bool) : WRes :=
  match probe keystring with
  | (_, true) => ⟨none, true, [keystring], keystring, []⟩
  | (some y, false) =>
      finishW keystring (some y) [keystring] [] (0 ≤ pcount) expandEnabled retKey false
  | (none, false) =>
      if 0 ≤ pcount then
        if afflen0 = 0 then
          afterTrim probe keystring star starat expandEnabled retKey [keystring]
            (trimLoop probe keystring expandEnabled affix
              (((keystring.count 46 : Int) - pcount + 1).toNat) keystring 0 0) true
        else
          (match probe (affix.take afflen0 ++ keystring) with
           | (_, true) => ⟨none, true, [keystring, affix.take afflen0 ++ keystring], keystring, []⟩
           | (some y, false) =>
               finishW keystring (some y) [keystring, affix.take afflen0 ++ keystring] []
                 true expandEnabled retKey false
           | (none, false) =>
               afterTrim probe keystring star starat expandEnabled retKey
                 [keystring, affix.take afflen0 ++ keystring]
                 (trimLoop probe keystring expandEnabled affix
                   (((keystring.count 46 : Int) - pcount + 1).toNat)
                   (affix.take afflen0 ++ keystring) afflen0 afflen0) false)
      else starFinish probe keystring star starat expandEnabled retKey [keystring]

theorem lastIdxOf_lt (s : Str) (b i : Nat) (h : lastIdxOf s b = some i) : i < s.length := by
  induction s generalizing i with
  | nil => cases h
  | cons c rest ih =>
      have h' : (match lastIdxOf rest b with
        | some j => some (j + 1)
        | none => if c = b then some 0 else none) = some i := h
      cases hl : lastIdxOf rest b with
      | some j =>
          rw [hl] at h'
          have hj := Option.some.inj h'
          subst hj
          exact Nat.succ_lt_succ (ih j hl)
      | none =>
          rw [hl] at h'
          have h'' : (if c = b then some 0 else (none : Option Nat)) = some i := h'
          by_cases hc : c = b
          · rw [if_pos hc] at h''
            have hj := Option.some.inj h''
            subst hj
            simp
          · rw [if_neg hc] at h''
            cases h''

theorem set_getD_self (l : Str) (n : Nat) (h : n < l.length) :
    l.set n (l.getD n 0) = l := by
  induction l generalizing n with
  | nil => simp at h
  | cons c rest ih =>
      cases n with
      | zero => simp
      | succ m =>
          simp only [List.getD_cons_succ, List.set_cons_succ, List.cons.injEq, true_and]
          exact ih m (by simpa using h)

theorem drop_set_cons (l : Str) (n v : Nat) (h : n < l.length) :
    (l.set n v).drop n = v :: l.drop (n + 1) := by
  induction l generalizing n with
  | nil => simp at h
  | cons c rest ih =>
      cases n with
      | zero => simp
      | succ m =>
          simp only [List.set_cons_succ, List.drop_succ_cons]
          exact ih m (by simpa using h)

theorem starAtCore_buf (probe : Str → Option Str × Bool) (k : Str) (ee : Bool) (i : Nat)
    (h : i - 1 < k.length) : (starAtCore probe k ee i).buf = k := by
  unfold starAtCore
  cases hp : probe ((k.set (i - 1) 42).drop (i - 1)) with
  | mk y d =>
      cases d <;> cases y <;>
        (show (k.set (i - 1) 42).set (i - 1) (k.getD (i - 1) 0) = k;
         rw [List.set_set];
         exact set_getD_self k (i - 1) h)

theorem starAtPhase_buf (probe : Str → Option Str × Bool) (k : Str) (starat ee : Bool) :
    (starAtPhase probe k starat ee).buf = k := by
  cases starat with
  | false => rfl
  | true =>
      unfold starAtPhase
      cases hl : lastIdxOf k 64 with
      | none => rfl
      | some i =>
          by_cases hi : 0 < i
          · rw [if_pos rfl]
            show (if 0 < i then starAtCore probe k ee i
              else (⟨none, false, [], k, []⟩ : TrimRes)).buf = k
            rw [if_pos hi]
            exact starAtCore_buf probe k ee i
              (by have := lastIdxOf_lt k 64 i hl; omega)
          · rw [if_pos rfl]
            show (if 0 < i then starAtCore probe k ee i
              else (⟨none, false, [], k, []⟩ : TrimRes)).buf = k
            rw [if_neg hi]

theorem starBare_buf (probe : Str → Option Str × Bool) (r1 : TrimRes) (st sa ee : Bool) :
    (starBare probe r1 st sa ee).buf = r1.buf := by
  unfold starBare
  split
  · rfl
  · cases hy : r1.yield with
    | some v => rfl
    | none =>
        by_cases hss : (st || sa) = true
        · rw [if_pos hss]
        · rw [if_neg hss]

theorem starPhase_buf (probe : Str → Option Str × Bool) (k : Str) (st sa ee : Bool) :
    (starPhase probe k st sa ee).buf = k := by
  unfold starPhase
  rw [starBare_buf]
  exact starAtPhase_buf probe k sa ee

theorem trimLoop_buf_zero (probe : Str → Option Str × Bool) (ks : Str) (ee : Bool)
    (affix : Str) : ∀ (fuel : Nat) (buf : Str) (k3 : Nat),
    (trimLoop probe ks ee affix fuel buf k3 0).buf = buf := by
  intro fuel
  induction fuel with
  | zero => intro buf k3; rfl
  | succ n ih =>
      intro buf k3
      unfold trimLoop
      by_cases hadv : advanceDot buf k3 = buf.length
      · rw [if_pos hadv, if_pos (by omega)]
      · rw [if_neg hadv]
        rw [if_neg (show ¬ (0 : Nat) < 0 by omega)]
        cases hp : probe (buf.drop (advanceDot buf k3 + 1 - 0)) with
        | mk y d =>
            cases y with
            | some v => cases d <;> rfl
            | none =>
                cases d with
                | true => rfl
                | false => exact ih buf ((advanceDot buf k3 + 1 - 0) + 0)

theorem finishW_keyFinal (keyB : Str) (y : Option Str) (p : List Str)
    (e : List (Str × Int)) (snw ee rk df : Bool) :
    (finishW keyB y p e snw ee rk df).keyFinal = keyB := rfl

theorem starFinish_keyFinal (probe : Str → Option Str × Bool) (keyB : Str)
    (st sa ee rk : Bool) (p0 : List Str) :
    (starFinish probe keyB st sa ee rk p0).keyFinal = keyB := by
  unfold starFinish
  rw [finishW_keyFinal]
  exact starPhase_buf probe keyB st sa ee

theorem afterTrim_keyFinal (probe : Str → Option Str × Bool) (ks : Str)
    (st sa ee rk : Bool) (p0 : List Str) (r : TrimRes) (al : Bool) :
    (afterTrim probe ks st sa ee rk p0 r al).keyFinal = if al then r.buf else ks := by
  unfold afterTrim
  split
  · rfl
  · cases hy : r.yield with
    | some v => rfl
    | none => exact starFinish_keyFinal probe _ st sa ee rk (p0 ++ r.probes)

theorem searchFindW_probe_defer (probe : Str → Option Str × Bool) (ks : Str) (pc : Int)
    (affix : Str) (af0 : Nat) (st sa ee rk : Bool) (y0 : Option Str)
    (hp : probe ks = (y0, true)) :
    searchFindW probe ks pc affix af0 st sa ee rk = ⟨none, true, [ks], ks, []⟩ := by
  unfold searchFindW
  rw [hp]
  cases y0 <;> rfl

theorem searchFindW_probe_hit (probe : Str → Option Str × Bool) (ks : Str) (pc : Int)
    (affix : Str) (af0 : Nat) (st sa ee rk : Bool) (y : Str)
    (hp : probe ks = (some y, false)) :
    searchFindW probe ks pc affix af0 st sa ee rk =
      finishW ks (some y) [ks] [] (0 ≤ pc) ee rk false := by
  unfold searchFindW
  rw [hp]

theorem searchFindW_miss_neg (probe : Str → Option Str × Bool) (ks : Str) (pc : Int)
    (affix : Str) (af0 : Nat) (st sa ee rk : Bool)
    (hp : probe ks = (none, false)) (hpc : pc < 0) :
    searchFindW probe ks pc affix af0 st sa ee rk =
      starFinish probe ks st sa ee rk [ks] := by
  unfold searchFindW
  rw [hp, if_neg (by omega)]

theorem searchFindW_miss_zero (probe : Str → Option Str × Bool) (ks : Str) (pc : Int)
    (affix : Str) (st sa ee rk : Bool)
    (hp : probe ks = (none, false)) (hpc : 0 ≤ pc) :
    searchFindW probe ks pc affix 0 st sa ee rk =
      afterTrim probe ks st sa ee rk [ks]
        (trimLoop probe ks ee affix (((ks.count 46 : Int) - pc + 1).toNat) ks 0 0) true := by
  unfold searchFindW
  rw [hp, if_pos hpc, if_pos rfl]

theorem searchFindW_aff_defer (probe : Str → Option Str × Bool) (ks : Str) (pc : Int)
    (affix : Str) (af0 : Nat) (st sa ee rk : Bool) (y2 : Option Str)
    (hp : probe ks = (none, false)) (hpc : 0 ≤ pc) (ha : af0 ≠ 0)
    (hp2 : probe (affix.take af0 ++ ks) = (y2, true)) :
    searchFindW probe ks pc affix af0 st sa ee rk =
      ⟨none, true, [ks, affix.take af0 ++ ks], ks, []⟩ := by
  unfold searchFindW
  rw [hp, if_pos hpc, if_neg ha, hp2]
  cases y2 <;> rfl

theorem searchFindW_aff_hit (probe : Str → Option Str × Bool) (ks : Str) (pc : Int)
    (affix : Str) (af0 : Nat) (st sa ee rk : Bool) (y2 : Str)
    (hp : probe ks = (none, false)) (hpc : 0 ≤ pc) (ha : af0 ≠ 0)
    (hp2 : probe (affix.take af0 ++ ks) = (some y2, false)) :
    searchFindW probe ks pc affix af0 st sa ee rk =
      finishW ks (some y2) [ks, affix.take af0 ++ ks] [] true ee rk false := by
  unfold searchFindW
  rw [hp, if_pos hpc, if_neg ha, hp2]

theorem searchFindW_aff_miss (probe : Str → Option Str × Bool) (ks : Str) (pc : Int)
    (affix : Str) (af0 : Nat) (st sa ee rk : Bool)
    (hp : probe ks = (none, false)) (hpc : 0 ≤ pc) (ha : af0 ≠ 0)
    (hp2 : probe (affix.take af0 ++ ks) = (none, false)) :
    searchFindW probe ks pc affix af0 st sa ee rk =
      afterTrim probe ks st sa ee rk [ks, affix.take af0 ++ ks]
        (trimLoop probe ks ee affix (((ks.count 46 : Int) - pc + 1).toNat)
          (affix.take af0 ++ ks) af0 af0) false := by
  unfold searchFindW
  rw [hp, if_pos hpc, if_neg ha, hp2]

/-- C10: every call of the `search_find` wildcard engine returns with the
caller's key buffer byte-for-byte unchanged.  The `*@` attempt overwrites
the byte before the rightmost `@` with `*` but restores the saved byte
before every return on that path; the trimming attempts with a non-empty
affix write only into the freshly allocated `keystring2` buffer; and with
a zero-length affix (where `keystring2` aliases the key) the loop only
advances a cursor and writes nothing. -/
theorem C10_key_unchanged (probe : Str → Option Str × Bool) (keystring : Str) (pc : Int)
    (affix : Str) (af0 : Nat) (st sa ee rk : Bool) :
    (searchFindW probe keystring pc affix af0 st sa ee rk).keyFinal = keystring := by
  cases hp : probe keystring with
  | mk y d =>
      cases d with
      | true => rw [searchFindW_probe_defer probe keystring pc affix af0 st sa ee rk y hp]
      | false =>
          cases y with
          | some v =>
              rw [searchFindW_probe_hit probe keystring pc affix af0 st sa ee rk v hp]
              rfl
          | none =>
              by_cases hpc : 0 ≤ pc
              · by_cases ha : af0 = 0
                · subst ha
                  rw [searchFindW_miss_zero probe keystring pc affix st sa ee rk hp hpc]
                  rw [afterTrim_keyFinal]
                  rw [if_pos rfl]
                  exact trimLoop_buf_zero probe keystring ee affix _ keystring 0
                · cases hp2 : probe (affix.take af0 ++ keystring) with
                  | mk y2 d2 =>
                      cases d2 with
                      | true =>
                          rw [searchFindW_aff_defer probe keystring pc affix af0 st sa ee rk
                            y2 hp hpc ha hp2]
                      | false =>
                          cases y2 with
                          | some v2 =>
                              rw [searchFindW_aff_hit probe keystring pc affix af0 st sa ee rk
                                v2 hp hpc ha hp2]
                              rfl
                          | none =>
                              rw [searchFindW_aff_miss probe keystring pc affix af0 st sa ee rk
                                hp hpc ha hp2]
                              rw [afterTrim_keyFinal]
                              rfl
              · rw [searchFindW_miss_neg probe keystring pc affix af0 st sa ee rk hp (by omega)]
                exact starFinish_keyFinal probe keystring st sa ee rk [keystring]

/-- C6 counterexample probe: only `"*@cd"` (the suffix actually probed by
the code) is present in the data. -/
def cexProbeC6 : Str → Option Str × Bool :=
  fun s => if s = [42, 64, 99, 100] then (some [118], false) else (none, false)

/-- C6 counterexample: key `"ab@cd"` (bytes 97 98 64 99 100), STARAT set,
no verbatim hit.  The engine probes the suffix `"*@cd"` (42 64 99 100), not
the whole key with the replacement (`"a*@cd"` = 97 42 64 99 100) as the
claim states; and the first expansion variable gets length 2 (the offset of
the rightmost `@`, excluding it), not 3 (up to and including the `@`). -/
theorem C6_counterexample :
    (searchFindW cexProbeC6 [97, 98, 64, 99, 100] (-1) [] 0 false true true false).probes =
      [[97, 98, 64, 99, 100], [42, 64, 99, 100]] ∧
    ¬ ((searchFindW cexProbeC6 [97, 98, 64, 99, 100] (-1) [] 0 false true true
        false).probes = [[97, 98, 64, 99, 100], [97, 42, 64, 99, 100]]) ∧
    (searchFindW cexProbeC6 [97, 98, 64, 99, 100] (-1) [] 0 false true true false).expand =
      [([97, 98, 64, 99, 100], 2), ([97, 98, 64, 99, 100], 0)] ∧
    ¬ ((searchFindW cexProbeC6 [97, 98, 64, 99, 100] (-1) [] 0 false true true
        false).expand = [([97, 98, 64, 99, 100], 3), ([97, 98, 64, 99, 100], 0)]) ∧
    (searchFindW cexProbeC6 [97, 98, 64, 99, 100] (-1) [] 0 false true true false).yield =
      some [118] := by
  decide

/-- C6 (amended): when no earlier attempt matched (here: no partial
matching, verbatim miss), the STARAT flag is set and the key has a
rightmost `@` at offset `i ≥ 1`, the engine looks up the string formed of
`*` followed by the key from the rightmost `@` onward, and on a hit (with
expansion enabled) sets the first expansion variable to the original key
with length `i` — the bytes strictly before the `@` — and the second to
the original key with length 0; the key buffer is restored. -/
theorem C6_starat_default (probe : Str → Option Str × Bool) (keystring : Str) (st : Bool)
    (d : Str) (i : Nat)
    (hp : probe keystring = (none, false))
    (hl : lastIdxOf keystring 64 = some i) (hi : 1 ≤ i)
    (hp2 : probe (42 :: keystring.drop i) = (some d, false)) :
    searchFindW probe keystring (-1) [] 0 st true true false =
      ⟨some d, false, [keystring, 42 :: keystring.drop i], keystring,
        [(keystring, (i : Int)), (keystring, 0)]⟩ := by
  have hlen : i < keystring.length := lastIdxOf_lt keystring 64 i hl
  have hpk : (keystring.set (i - 1) 42).drop (i - 1) = 42 :: keystring.drop i := by
    rw [drop_set_cons keystring (i - 1) 42 (by omega)]
    rw [show i - 1 + 1 = i by omega]
  have hrestore : (keystring.set (i - 1) 42).set (i - 1) (keystring.getD (i - 1) 0) =
      keystring := by
    rw [List.set_set]
    exact set_getD_self keystring (i - 1) (by omega)
  have hcore : starAtCore probe keystring true i =
      ⟨some d, false, [42 :: keystring.drop i], keystring,
        [(keystring, (i : Int)), (keystring, 0)]⟩ := by
    unfold starAtCore
    rw [hpk, hp2, hrestore]
    rfl
  have hap : starAtPhase probe keystring true true = starAtCore probe keystring true i := by
    have h1 : starAtPhase probe keystring true true =
        (match lastIdxOf keystring 64 with
         | some j =>
             if 0 < j then starAtCore probe keystring true j
             else ⟨none, false, [], keystring, []⟩
         | none => ⟨none, false, [], keystring, []⟩) := rfl
    rw [h1, hl]
    show (if 0 < i then starAtCore probe keystring true i
      else (⟨none, false, [], keystring, []⟩ : TrimRes)) = starAtCore probe keystring true i
    rw [if_pos (by omega)]
  have hphase : starPhase probe keystring st true true =
      ⟨some d, false, [42 :: keystring.drop i], keystring,
        [(keystring, (i : Int)), (keystring, 0)]⟩ := by
    unfold starPhase
    rw [hap, hcore]
    rfl
  rw [searchFindW_miss_neg probe keystring (-1) [] 0 st true true false hp (by omega)]
  unfold starFinish
  rw [hphase]
  unfold finishW
  simp

/-- C6 amended-claim witness: the concrete key `"ab@cd"` with `@` at
offset 2 and the data row keyed by suffix `"*@cd"`. -/
theorem C6_starat_default_witness :
    (cexProbeC6 [97, 98, 64, 99, 100] = (none, false) ∧
      lastIdxOf [97, 98, 64, 99, 100] 64 = some 2 ∧ 1 ≤ 2 ∧
      cexProbeC6 (42 :: List.drop 2 [97, 98, 64, 99, 100]) = (some [118], false)) ∧
    searchFindW cexProbeC6 [97, 98, 64, 99, 100] (-1) [] 0 false true true false =
      ⟨some [118], false, [[97, 98, 64, 99, 100], 42 :: List.drop 2 [97, 98, 64, 99, 100]],
        [97, 98, 64, 99, 100], [([97, 98, 64, 99, 100], (2 : Int)), ([97, 98, 64, 99, 100], 0)]⟩ :=
  ⟨⟨by decide, by decide, by decide, by decide⟩,
   C6_starat_default cexProbeC6 [97, 98, 64, 99, 100] false [118] 2
     (by decide) (by decide) (by decide) (by decide)⟩

theorem starFinish_probes_noflags (probe : Str → Option Str × Bool) (k : Str) (ee rk : Bool)
    (p0 : List Str) : (starFinish probe k false false ee rk p0).probes = p0 := by
  unfold starFinish starPhase starAtPhase starBare
  simp [finishW]

theorem afterTrim_break_probes (probe : Str → Option Str × Bool) (ks : Str) (ee rk : Bool)
    (p0 : List Str) (buf : Str) (al : Bool) :
    (afterTrim probe ks false false ee rk p0 ⟨none, false, [], buf, []⟩ al).probes = p0 := by
  unfold afterTrim
  rw [if_neg (by simp)]
  show (starFinish probe (if al then buf else ks) false false ee rk (p0 ++ [])).probes = p0
  rw [starFinish_probes_noflags]
  simp

/-- All-miss probe for concrete wildcard-engine runs. -/
def allMissProbe : Str → Option Str × Bool := fun _ => (none, false)

/-- C9 counterexample: partial-count 2, key `"a.b.c"` (exactly 2 dots),
affix `"*."`, verbatim miss, no star flags.  The engine performs TWO
wildcard lookups — `"*.a.b.c"` and then the left-trimmed `"*.b.c"` (the
loop `while (dotcount-- >= partial)` runs once when dotcount equals
partial) — not exactly one as the claim states. -/
theorem C9_counterexample :
    (searchFindW allMissProbe [97, 46, 98, 46, 99] 2 [42, 46] 2 false false true false).probes =
      [[97, 46, 98, 46, 99], [42, 46, 97, 46, 98, 46, 99], [42, 46, 98, 46, 99]] ∧
    ¬ ((searchFindW allMissProbe [97, 46, 98, 46, 99] 2 [42, 46] 2 false false true
        false).probes = [[97, 46, 98, 46, 99], [42, 46, 97, 46, 98, 46, 99]]) := by
  decide

/-- C9 (amended): with partial matching enabled, a non-empty affix, and a
key containing STRICTLY FEWER dots than the partial-count, where the
verbatim attempt misses and no star flags are set, the wildcard engine
performs exactly one wildcard lookup — the affix prepended to the full
key — and no left-trimming lookups before giving up.  (With exactly
partial-count dots, as the claim had it, one trimming lookup also runs —
see the counterexample.) -/
theorem C9_no_trim (probe : Str → Option Str × Bool) (keystring : Str) (pc : Int)
    (affix : Str) (ee rk : Bool)
    (hpc : 0 ≤ pc) (hne : affix ≠ [])
    (hdots : (keystring.count 46 : Int) < pc)
    (hp : probe keystring = (none, false)) :
    (searchFindW probe keystring pc affix affix.length false false ee rk).probes =
      [keystring, affix ++ keystring] := by
  have ha : affix.length ≠ 0 := by
    intro h
    exact hne (List.length_eq_zero.mp h)
  have htake : affix.take affix.length = affix := List.take_length affix
  have hfuel : (((keystring.count 46 : Int)) - pc + 1).toNat = 0 := by
    apply Int.toNat_of_nonpos
    omega
  cases hp2 : probe (affix.take affix.length ++ keystring) with
  | mk y2 d2 =>
      cases d2 with
      | true =>
          rw [searchFindW_aff_defer probe keystring pc affix affix.length false false ee rk
            y2 hp hpc ha hp2, htake]
      | false =>
          cases y2 with
          | some v2 =>
              rw [searchFindW_aff_hit probe keystring pc affix affix.length false false ee rk
                v2 hp hpc ha hp2, htake]
              rfl
          | none =>
              rw [searchFindW_aff_miss probe keystring pc affix affix.length false false ee rk
                hp hpc ha hp2, hfuel]
              rw [show trimLoop probe keystring ee affix 0
                  (affix.take affix.length ++ keystring) affix.length affix.length =
                (⟨none, false, [], affix.take affix.length ++ keystring, []⟩ : TrimRes) from rfl]
              rw [afterTrim_break_probes, htake]

/-- C9 amended-claim witness: partial-count 2, key `"a.b"` (1 dot < 2),
affix `"*."`, all probes miss: the probes are exactly the verbatim key and
the affix-prefixed key. -/
theorem C9_no_trim_witness :
    ((0 : Int) ≤ 2 ∧ ([42, 46] : Str) ≠ [] ∧
      ((List.count 46 [97, 46, 98] : Int) < 2) ∧
      allMissProbe [97, 46, 98] = (none, false)) ∧
    (searchFindW allMissProbe [97, 46, 98] 2 [42, 46] (List.length ([42, 46] : Str))
      false false true false).probes = [[97, 46, 98], [42, 46] ++ [97, 46, 98]] :=
  ⟨⟨by decide, by decide, by decide, by decide⟩,
   C9_no_trim allMissProbe [97, 46, 98] 2 [42, 46] true false
     (by decide) (by decide) (by decide) (by decide)⟩
